import Mathlib

/-!
Shallow embedding of the ICPC contest scoreboard engine (src/main.cpp).
Problem letters are modelled by their character codes (Nat), since the C++
code treats `char` as an integer ('A' = 65, 'Z' = 90, 'Z'+1 = 91).
-/

set_option maxHeartbeats 1000000

namespace ICPC

structure Submission where
  problem : String
  status : String
  time : Int
deriving DecidableEq

structure ProblemStatus where
  solved : Bool
  solveTime : Int
  wrongAttempts : Int
  frozenSubmissions : Int
  submissions : List Submission
  frozenSubs : List Submission
deriving DecidableEq

def defaultPS : ProblemStatus := ⟨false, 0, 0, 0, [], []⟩

structure Team where
  name : String
  problems : List (Nat × ProblemStatus)
  cachedSolved : Int
  cachedPenalty : Int
  cachedTimes : List Int
  cacheValid : Bool
deriving DecidableEq

def mkTeam (n : String) : Team := ⟨n, [], -1, -1, [], false⟩

/-- Lexicographic string comparison on the character data, as
std::string::operator< compares character sequences. -/
def charListLt : List Char → List Char → Bool
  | [], [] => false
  | [], _ :: _ => true
  | _ :: _, [] => false
  | a :: as, b :: bs => if a < b then true else if b < a then false else charListLt as bs

def strLt (a b : String) : Bool := charListLt a.data b.data

/-- Lookup in the per-team problem map (std::map keyed by problem letter);
absent keys read as a default-constructed ProblemStatus. -/
def lookupPS : List (Nat × ProblemStatus) → Nat → ProblemStatus
  | [], _ => defaultPS
  | p :: rest, k => if p.1 = k then p.2 else lookupPS rest k

/-- Sorted-unique insertion, matching std::map assignment through operator[]. -/
def insertPS : List (Nat × ProblemStatus) → Nat → ProblemStatus → List (Nat × ProblemStatus)
  | [], k, v => [(k, v)]
  | p :: rest, k, v =>
    if k < p.1 then (k, v) :: p :: rest
    else if k = p.1 then (k, v) :: rest
    else p :: insertPS rest k v

def computeSolved (mp : List (Nat × ProblemStatus)) : Int :=
  mp.foldl (fun acc p => if p.2.solved then acc + 1 else acc) 0

def computePenalty (mp : List (Nat × ProblemStatus)) : Int :=
  mp.foldl (fun acc p => if p.2.solved then acc + (p.2.solveTime + 20 * p.2.wrongAttempts) else acc) 0

def collectTimes (mp : List (Nat × ProblemStatus)) : List Int :=
  mp.foldl (fun acc p => if p.2.solved then acc ++ [p.2.solveTime] else acc) []

/-- Descending insertion used to model sort(rbegin, rend). -/
def insertDesc (x : Int) : List Int → List Int
  | [] => [x]
  | y :: ys => if y ≤ x then x :: y :: ys else y :: insertDesc x ys

def sortDesc (l : List Int) : List Int := l.foldr insertDesc []

def computeTimes (mp : List (Nat × ProblemStatus)) : List Int :=
  sortDesc (collectTimes mp)

def invalidateCache (t : Team) : Team := { t with cacheValid := false }

def updateCache (t : Team) : Team :=
  if t.cacheValid then t
  else { t with
          cachedSolved := computeSolved t.problems
          cachedPenalty := computePenalty t.problems
          cachedTimes := computeTimes t.problems
          cacheValid := true }

def getSolvedCount (t : Team) : Int := (updateCache t).cachedSolved

def getPenaltyTime (t : Team) : Int := (updateCache t).cachedPenalty

def getSolveTimes (t : Team) : List Int := (updateCache t).cachedTimes

/-- Element-wise solve-time comparison over the overlapping length, falling
through to the name comparison, as in the loop of compareTeams. -/
def timesThenName : List Int → List Int → String → String → Bool
  | a :: l1, b :: l2, n1, n2 =>
    if a ≠ b then decide (a < b) else timesThenName l1 l2 n1 n2
  | _, _, n1, n2 => strLt n1 n2

def compareTeams (t1 t2 : Team) : Bool :=
  let solved1 := getSolvedCount t1
  let solved2 := getSolvedCount t2
  if solved1 ≠ solved2 then decide (solved1 > solved2)
  else
    let penalty1 := getPenaltyTime t1
    let penalty2 := getPenaltyTime t2
    if penalty1 ≠ penalty2 then decide (penalty1 < penalty2)
    else timesThenName (getSolveTimes t1) (getSolveTimes t2) t1.name t2.name

structure SysState where
  teams : List Team
  started : Bool
  frozen : Bool
  freezeTime : Int
  durationTime : Int
  problemCount : Nat
  ranking : List String
deriving DecidableEq

def initState : SysState := ⟨[], false, false, -1, 0, 0, []⟩

def findTeam (s : SysState) (n : String) : Option Team :=
  s.teams.find? (fun t => t.name = n)

def defaultTeam : Team := mkTeam ""

def findTeamD (s : SysState) (n : String) : Team :=
  (findTeam s n).getD defaultTeam

def updTeams : List Team → Team → List Team
  | [], _ => []
  | t0 :: rest, t => if t0.name = t.name then t :: rest else t0 :: updTeams rest t

def updTeam (s : SysState) (t : Team) : SysState :=
  { s with teams := updTeams s.teams t }

def insertTeamSorted : List Team → Team → List Team
  | [], t => [t]
  | t0 :: rest, t =>
    if strLt t.name t0.name then t :: t0 :: rest else t0 :: insertTeamSorted rest t

def insertNameSorted : List String → String → List String
  | [], n => [n]
  | n0 :: rest, n =>
    if strLt n n0 then n :: n0 :: rest else n0 :: insertNameSorted rest n

def sortNames (l : List String) : List String := l.foldl insertNameSorted []

def addTeam (s : SysState) (name : String) : SysState :=
  if s.started then s
  else if (findTeam s name).isSome then s
  else { s with teams := insertTeamSorted s.teams (mkTeam name)
              , ranking := sortNames (s.ranking ++ [name]) }

def initProblems (count : Nat) (mp : List (Nat × ProblemStatus)) : List (Nat × ProblemStatus) :=
  (List.range count).foldl (fun acc i => insertPS acc (65 + i) defaultPS) mp

def startCompetition (s : SysState) (duration : Int) (problems : Nat) : SysState :=
  if s.started then s
  else { s with started := true
              , durationTime := duration
              , problemCount := problems
              , teams := s.teams.map (fun t => { t with problems := initProblems problems t.problems }) }

def probKey (p : String) : Nat := p.front.toNat

/-- Per-problem effect of a submission; the Bool reports whether the team
cache is invalidated by this submission. -/
def submitPS (frozen : Bool) (sub : Submission) (ps0 : ProblemStatus) : ProblemStatus × Bool :=
  let ps := { ps0 with submissions := ps0.submissions ++ [sub] }
  if frozen ∧ ¬ ps.solved then
    ({ ps with frozenSubmissions := ps.frozenSubmissions + 1
             , frozenSubs := ps.frozenSubs ++ [sub] }, false)
  else if ¬ ps.solved then
    if sub.status = "Accepted" then
      ({ ps with solved := true, solveTime := sub.time }, true)
    else
      ({ ps with wrongAttempts := ps.wrongAttempts + 1 }, true)
  else (ps, false)

/-- Submission recording. An unknown team name makes the C++ code insert a
null Team pointer into the map and dereference it (undefined behavior); that
is modelled as `none`. -/
def submitOp (s : SysState) (problem teamName status : String) (time : Int) : Option SysState :=
  match findTeam s teamName with
  | none => none
  | some team =>
    let prob := probKey problem
    let sub : Submission := ⟨problem, status, time⟩
    let res := submitPS s.frozen sub (lookupPS team.problems prob)
    let team' := { team with problems := insertPS team.problems prob res.1 }
    let team'' := if res.2 then invalidateCache team' else team'
    some (updTeam s team'')

def insRank (s : SysState) (n : String) : List String → List String
  | [] => [n]
  | m :: ms =>
    if compareTeams (findTeamD s n) (findTeamD s m) then n :: m :: ms
    else m :: insRank s n ms

def sortRanking (s : SysState) : List String → List String
  | [] => []
  | n :: rest => insRank s n (sortRanking s rest)

def teamNames (s : SysState) : List String := s.teams.map (fun t => t.name)

def flushScoreboard (s : SysState) : SysState :=
  { s with ranking := sortRanking s (teamNames s) }

def validateAll (s : SysState) : SysState :=
  { s with teams := s.teams.map updateCache }

def flushOp (s : SysState) : SysState := validateAll (flushScoreboard s)

def freezeOp (s : SysState) : SysState :=
  if s.frozen then s else { s with frozen := true }

/-- Smallest problem letter (as a code) with pending frozen submissions for a
team; 91 = 'Z'+1 when there is none, as in the scan of scroll(). -/
def smallestFrozenOf (t : Team) (problemCount : Nat) : Nat :=
  (List.range problemCount).foldl
    (fun acc j =>
      let prob := 65 + j
      if 0 < (lookupPS t.problems prob).frozenSubmissions then min acc prob else acc)
    91

def findTargetAux (s : SysState) : List String → Option (String × Nat)
  | [] => none
  | n :: rest =>
    let c := smallestFrozenOf (findTeamD s n) s.problemCount
    if c ≤ 90 then some (n, c) else findTargetAux s rest

/-- Scan from lowest current rank upward for the team/problem to resolve. -/
def findTarget (s : SysState) : Option (String × Nat) :=
  findTargetAux s s.ranking.reverse

def processStep (acc : ProblemStatus × Bool) (sub : Submission) : ProblemStatus × Bool :=
  if ¬ acc.1.solved then
    if sub.status = "Accepted" then
      ({ acc.1 with solved := true, solveTime := sub.time }, true)
    else
      ({ acc.1 with wrongAttempts := acc.1.wrongAttempts + 1 }, acc.2)
  else acc

/-- Replay of the frozen submissions of one problem during scroll; the Bool
is the `changed` flag (whether the problem became solved here). -/
def processFrozen (ps : ProblemStatus) : ProblemStatus × Bool :=
  let r := ps.frozenSubs.foldl processStep (ps, false)
  ({ r.1 with frozenSubmissions := 0, frozenSubs := [] }, r.2)

def idxAux : List String → String → Option Nat
  | [], _ => none
  | y :: ys, x => if y = x then some 0 else (idxAux ys x).map (fun i => i + 1)

/-- First index of a name in the ranking, 0 when absent, as the C++ scan
initializes oldRank = 0 and overwrites it on the first match. -/
def idxOfD (l : List String) (x : String) : Nat := (idxAux l x).getD 0

/-- New rank search: move up while the team compares better than the team
immediately above it. -/
def bubble (s : SysState) (teamName : String) : Nat → Nat
  | 0 => 0
  | n + 1 =>
    if compareTeams (findTeamD s teamName) (findTeamD s (s.ranking.getD n "")) then
      bubble s teamName n
    else n + 1

def insAt : Nat → String → List String → List String
  | 0, x, l => x :: l
  | _ + 1, x, [] => [x]
  | n + 1, x, y :: l => y :: insAt n x l

structure RankRec where
  team : String
  below : String
  solved : Int
  penalty : Int
deriving DecidableEq

/-- One iteration body of the scroll loop after the target has been found:
resolve the problem, reposition the team, possibly emit a rank-change record. -/
def resolveOne (s : SysState) (teamName : String) (prob : Nat) : SysState × Option RankRec :=
  let team := findTeamD s teamName
  let oldRank := idxOfD s.ranking teamName
  let res := processFrozen (lookupPS team.problems prob)
  let team' := { team with problems := insertPS team.problems prob res.1 }
  let s' := updTeam s team'
  if res.2 then
    let team'' := invalidateCache team'
    let s'' := updTeam s' team''
    let newRank := bubble s'' teamName oldRank
    if newRank < oldRank then
      let r' := insAt newRank teamName (s''.ranking.eraseIdx oldRank)
      ({ s'' with ranking := r' },
       some ⟨teamName, r'.getD (newRank + 1) "", getSolvedCount team'', getPenaltyTime team''⟩)
    else (s'', none)
  else (s', none)

/-- Number of (team, problem) pairs with pending frozen submissions; the
termination measure of the scroll loop. -/
def frozenPairsTeam (t : Team) : Nat :=
  t.problems.countP (fun p => decide (0 < p.2.frozenSubmissions))

def frozenPairs (s : SysState) : Nat :=
  (s.teams.map frozenPairsTeam).sum

def scrollLoop : Nat → SysState → List RankRec → SysState × List RankRec
  | 0, s, acc => (s, acc)
  | fuel + 1, s, acc =>
    match findTarget s with
    | none => (s, acc)
    | some tp =>
      let r := resolveOne s tp.1 tp.2
      scrollLoop fuel r.1 (acc ++ r.2.toList)

def scrollOp (s : SysState) : SysState × List RankRec :=
  if ¬ s.frozen then (s, [])
  else
    let s1 := validateAll (flushScoreboard s)
    let r := scrollLoop (frozenPairs s1) s1 []
    (validateAll { r.1 with frozen := false }, r.2)

def matchFilter (problem status : String) (sub : Submission) : Bool :=
  (problem = "ALL" ∨ sub.problem = problem) ∧ (status = "ALL" ∨ sub.status = status)

def queryStep (problem status : String) (best : Option Submission) (sub : Submission) : Option Submission :=
  if matchFilter problem status sub then
    match best with
    | none => some sub
    | some b => if b.time < sub.time then some sub else best
  else best

/-- Submission query over a team: scan problems in map (letter) order, each
problem's submission list in recording order, keeping a strictly later-time
match. -/
def querySubmission (t : Team) (problem status : String) : Option Submission :=
  t.problems.foldl (fun best p => p.2.submissions.foldl (queryStep problem status) best) none

inductive Cmd where
  | addTeam (name : String)
  | start (duration : Int) (problems : Nat)
  | submit (problem team status : String) (time : Int)
  | flush
  | freeze
  | scroll
  | queryRanking (team : String)
  | querySubmission (team problem status : String)
deriving DecidableEq

/-- One command of the engine; `none` marks the undefined behavior reached by
a submission naming an unknown team. Queries read state without changing it. -/
def step (s : SysState) : Cmd → Option SysState
  | .addTeam n => some (addTeam s n)
  | .start d p => some (startCompetition s d p)
  | .submit problem team status time => submitOp s problem team status time
  | .flush => some (flushOp s)
  | .freeze => some (freezeOp s)
  | .scroll => some (scrollOp s).1
  | .queryRanking _ => some s
  | .querySubmission _ _ _ => some s

def runFrom (s : SysState) : List Cmd → Option SysState
  | [] => some s
  | c :: cs =>
    match step s c with
    | none => none
    | some s' => runFrom s' cs

def runCmds (cmds : List Cmd) : Option SysState := runFrom initState cmds

/-- Cache discipline: whenever the valid bit is set, the memoized metrics
agree with the values recomputed from the problem statuses. -/
def cacheOK (t : Team) : Prop :=
  t.cacheValid = true →
    t.cachedSolved = computeSolved t.problems ∧
    t.cachedPenalty = computePenalty t.problems ∧
    t.cachedTimes = computeTimes t.problems

/-- Well-formed problem map: strictly increasing keys, as std::map guarantees. -/
def PMapWF (mp : List (Nat × ProblemStatus)) : Prop :=
  mp.Pairwise (fun a b => a.1 < b.1)

def TeamsWF (s : SysState) : Prop := ∀ t ∈ s.teams, PMapWF t.problems

theorem foldl_solved_acc (mp : List (Nat × ProblemStatus)) :
    ∀ a : Int, mp.foldl (fun acc p => if p.2.solved then acc + 1 else acc) a
      = a + computeSolved mp := by
  induction mp with
  | nil => intro a; simp [computeSolved]
  | cons p mp ih =>
    intro a
    simp only [computeSolved, List.foldl_cons]
    by_cases h : p.2.solved = true
    · simp only [h, if_true]
      rw [ih (a + 1), ih (0 + 1)]
      ring
    · simp only [h, Bool.false_eq_true, if_false]
      rw [ih a, ih 0]
      ring

theorem foldl_penalty_acc (mp : List (Nat × ProblemStatus)) :
    ∀ a : Int, mp.foldl (fun acc p => if p.2.solved then acc + (p.2.solveTime + 20 * p.2.wrongAttempts) else acc) a
      = a + computePenalty mp := by
  induction mp with
  | nil => intro a; simp [computePenalty]
  | cons p mp ih =>
    intro a
    simp only [computePenalty, List.foldl_cons]
    by_cases h : p.2.solved = true
    · simp only [h, if_true]
      rw [ih (a + (p.2.solveTime + 20 * p.2.wrongAttempts)),
          ih (0 + (p.2.solveTime + 20 * p.2.wrongAttempts))]
      ring
    · simp only [h, Bool.false_eq_true, if_false]
      rw [ih a, ih 0]
      ring

theorem foldl_times_acc (mp : List (Nat × ProblemStatus)) :
    ∀ a : List Int, mp.foldl (fun acc p => if p.2.solved then acc ++ [p.2.solveTime] else acc) a
      = a ++ collectTimes mp := by
  induction mp with
  | nil => intro a; simp [collectTimes]
  | cons p mp ih =>
    intro a
    simp only [collectTimes, List.foldl_cons]
    by_cases h : p.2.solved = true
    · simp only [h, if_true]
      rw [ih (a ++ [p.2.solveTime]), ih ([] ++ [p.2.solveTime])]
      simp
    · simp only [h, Bool.false_eq_true, if_false]
      rw [ih a, ih []]
      simp

theorem computeSolved_cons (p : Nat × ProblemStatus) (mp : List (Nat × ProblemStatus)) :
    computeSolved (p :: mp) = (if p.2.solved then 1 else 0) + computeSolved mp := by
  simp only [computeSolved, List.foldl_cons]
  rw [foldl_solved_acc]
  split <;> simp [computeSolved]

theorem computePenalty_cons (p : Nat × ProblemStatus) (mp : List (Nat × ProblemStatus)) :
    computePenalty (p :: mp)
      = (if p.2.solved then p.2.solveTime + 20 * p.2.wrongAttempts else 0) + computePenalty mp := by
  simp only [computePenalty, List.foldl_cons]
  rw [foldl_penalty_acc]
  split <;> simp [computePenalty]

theorem collectTimes_cons (p : Nat × ProblemStatus) (mp : List (Nat × ProblemStatus)) :
    collectTimes (p :: mp) = (if p.2.solved then [p.2.solveTime] else []) ++ collectTimes mp := by
  simp only [collectTimes, List.foldl_cons]
  rw [foldl_times_acc]
  split <;> simp [collectTimes]

theorem computeSolved_eq_filter (mp : List (Nat × ProblemStatus)) :
    computeSolved mp = ((mp.filter (fun p => p.2.solved)).length : Int) := by
  induction mp with
  | nil => simp [computeSolved]
  | cons p mp ih =>
    rw [computeSolved_cons, ih, List.filter_cons]
    by_cases h : p.2.solved = true
    · simp [h]
      ring
    · simp [h]

theorem computePenalty_eq_sum (mp : List (Nat × ProblemStatus)) :
    computePenalty mp
      = ((mp.filter (fun p => p.2.solved)).map (fun p => p.2.solveTime + 20 * p.2.wrongAttempts)).sum := by
  induction mp with
  | nil => simp [computePenalty]
  | cons p mp ih =>
    rw [computePenalty_cons, ih, List.filter_cons]
    by_cases h : p.2.solved = true <;> simp [h]

theorem collectTimes_eq_map (mp : List (Nat × ProblemStatus)) :
    collectTimes mp = (mp.filter (fun p => p.2.solved)).map (fun p => p.2.solveTime) := by
  induction mp with
  | nil => simp [collectTimes]
  | cons p mp ih =>
    rw [collectTimes_cons, ih, List.filter_cons]
    by_cases h : p.2.solved = true <;> simp [h]

theorem insertDesc_length (x : Int) (l : List Int) :
    (insertDesc x l).length = l.length + 1 := by
  induction l with
  | nil => simp [insertDesc]
  | cons y ys ih =>
    simp only [insertDesc]
    split <;> simp [ih]

theorem sortDesc_length (l : List Int) : (sortDesc l).length = l.length := by
  induction l with
  | nil => simp [sortDesc]
  | cons x xs ih =>
    simp only [sortDesc, List.foldr_cons] at *
    rw [insertDesc_length, ih]
    simp

theorem getSolvedCount_of_cacheOK (t : Team) (h : cacheOK t) :
    getSolvedCount t = computeSolved t.problems := by
  unfold getSolvedCount updateCache
  by_cases hv : t.cacheValid = true
  · simp [hv, (h hv).1]
  · simp [hv]

theorem getPenaltyTime_of_cacheOK (t : Team) (h : cacheOK t) :
    getPenaltyTime t = computePenalty t.problems := by
  unfold getPenaltyTime updateCache
  by_cases hv : t.cacheValid = true
  · simp [hv, (h hv).2.1]
  · simp [hv]

theorem getSolveTimes_of_cacheOK (t : Team) (h : cacheOK t) :
    getSolveTimes t = computeTimes t.problems := by
  unfold getSolveTimes updateCache
  by_cases hv : t.cacheValid = true
  · simp [hv, (h hv).2.2]
  · simp [hv]

theorem cacheOK_updateCache (t : Team) (h : cacheOK t) : cacheOK (updateCache t) := by
  unfold updateCache
  by_cases hv : t.cacheValid = true
  · simpa [hv] using h
  · intro _
    simp [hv]

theorem cacheOK_invalidate (t : Team) : cacheOK (invalidateCache t) := by
  intro h
  simp [invalidateCache] at h

theorem updateCache_problems (t : Team) : (updateCache t).problems = t.problems := by
  unfold updateCache
  split <;> rfl

theorem processFold_solved (l : List Submission) :
    ∀ acc : ProblemStatus × Bool, acc.1.solved = true → l.foldl processStep acc = acc := by
  induction l with
  | nil => intro acc _; rfl
  | cons x l ih =>
    intro acc h
    simp only [List.foldl_cons]
    rw [show processStep acc x = acc by simp [processStep, h]]
    exact ih acc h

theorem processFold_wrong (l : List Submission) :
    ∀ (p : ProblemStatus) (ch : Bool), p.solved = false →
      (∀ x ∈ l, x.status ≠ "Accepted") →
      l.foldl processStep (p, ch)
        = ({ p with wrongAttempts := p.wrongAttempts + l.length }, ch) := by
  induction l with
  | nil => intro p ch _ _; simp
  | cons x l ih =>
    intro p ch hs hl
    simp only [List.foldl_cons]
    rw [show processStep (p, ch) x
          = ({ p with wrongAttempts := p.wrongAttempts + 1 }, ch) by
        simp [processStep, hs, hl x (by simp)]]
    rw [ih _ ch (by simpa using hs) (fun y hy => hl y (by simp [hy]))]
    simp [Prod.ext_iff, ProblemStatus.mk.injEq]
    ring

theorem processFold_accept (pre : List Submission) :
    ∀ (a : Submission) (post : List Submission) (p : ProblemStatus) (ch : Bool),
      p.solved = false → a.status = "Accepted" →
      (∀ x ∈ pre, x.status ≠ "Accepted") →
      (pre ++ a :: post).foldl processStep (p, ch)
        = ({ p with solved := true, solveTime := a.time
                  , wrongAttempts := p.wrongAttempts + pre.length }, true) := by
  induction pre with
  | nil =>
    intro a post p ch hs ha _
    simp only [List.nil_append, List.foldl_cons]
    rw [show processStep (p, ch) a
          = ({ p with solved := true, solveTime := a.time }, true) by
        simp [processStep, hs, ha]]
    rw [processFold_solved post _ (by simp)]
    simp
  | cons x pre ih =>
    intro a post p ch hs ha hl
    simp only [List.cons_append, List.foldl_cons]
    rw [show processStep (p, ch) x
          = ({ p with wrongAttempts := p.wrongAttempts + 1 }, ch) by
        simp [processStep, hs, hl x (by simp)]]
    rw [ih a post _ ch (by simpa using hs) ha (fun y hy => hl y (by simp [hy]))]
    simp [Prod.ext_iff, ProblemStatus.mk.injEq]
    ring

/-- C3: resolving one frozen problem replays the frozen submissions in order.
If some submission is Accepted, the first such sets solved and solveTime,
every prior one adds a wrong attempt, later ones have no effect; if none is
Accepted every one adds a wrong attempt; the frozen count and list are
cleared in both cases. -/
theorem claim3_frozen_replay (ps : ProblemStatus) (h : ps.solved = false) :
    (∀ pre a post, ps.frozenSubs = pre ++ a :: post → a.status = "Accepted" →
        (∀ x ∈ pre, x.status ≠ "Accepted") →
        processFrozen ps
          = ({ ps with solved := true, solveTime := a.time
                     , wrongAttempts := ps.wrongAttempts + pre.length
                     , frozenSubmissions := 0, frozenSubs := [] }, true)) ∧
    ((∀ x ∈ ps.frozenSubs, x.status ≠ "Accepted") →
        processFrozen ps
          = ({ ps with wrongAttempts := ps.wrongAttempts + ps.frozenSubs.length
                     , frozenSubmissions := 0, frozenSubs := [] }, false)) := by
  constructor
  · intro pre a post hdec ha hpre
    unfold processFrozen
    rw [hdec, processFold_accept pre a post ps false h ha hpre]
  · intro hall
    unfold processFrozen
    rw [processFold_wrong ps.frozenSubs ps false h hall]

theorem claim3_frozen_replay_witness :
    processFrozen ⟨false, 0, 2, 2, [], [⟨"B", "Wrong", 100⟩, ⟨"B", "Accepted", 110⟩]⟩
      = (⟨true, 110, 3, 0, [], []⟩, true) := by
  have h := (claim3_frozen_replay
      ⟨false, 0, 2, 2, [], [⟨"B", "Wrong", 100⟩, ⟨"B", "Accepted", 110⟩]⟩ rfl).1
      [⟨"B", "Wrong", 100⟩] ⟨"B", "Accepted", 110⟩ [] rfl rfl (by decide)
  simpa using h

/-- C8: once a problem is solved, a later submission (frozen or not) only
appends to the audit log, and the scroll replay leaves solved, solveTime and
wrongAttempts untouched while clearing the frozen bookkeeping. -/
theorem claim8_solved_frame (frozen : Bool) (sub : Submission) (ps : ProblemStatus)
    (h : ps.solved = true) :
    ((submitPS frozen sub ps).1.solved = ps.solved ∧
     (submitPS frozen sub ps).1.solveTime = ps.solveTime ∧
     (submitPS frozen sub ps).1.wrongAttempts = ps.wrongAttempts ∧
     (submitPS frozen sub ps).1.submissions = ps.submissions ++ [sub] ∧
     (submitPS frozen sub ps).1.frozenSubmissions = ps.frozenSubmissions ∧
     (submitPS frozen sub ps).1.frozenSubs = ps.frozenSubs ∧
     (submitPS frozen sub ps).2 = false) ∧
    ((processFrozen ps).1.solved = ps.solved ∧
     (processFrozen ps).1.solveTime = ps.solveTime ∧
     (processFrozen ps).1.wrongAttempts = ps.wrongAttempts ∧
     (processFrozen ps).1.submissions = ps.submissions ∧
     (processFrozen ps).1.frozenSubmissions = 0 ∧
     (processFrozen ps).1.frozenSubs = [] ∧
     (processFrozen ps).2 = false) := by
  constructor
  · simp [submitPS, h]
  · unfold processFrozen
    rw [processFold_solved ps.frozenSubs (ps, false) (by simpa using h)]
    simp

theorem claim8_solved_frame_witness :
    (submitPS true ⟨"A", "Wrong", 9⟩ ⟨true, 4, 1, 0, [⟨"A", "Accepted", 4⟩], []⟩).1.wrongAttempts = 1 ∧
    (processFrozen ⟨true, 4, 1, 0, [⟨"A", "Accepted", 4⟩], []⟩).1.solved = true := by
  have h := claim8_solved_frame true ⟨"A", "Wrong", 9⟩
      ⟨true, 4, 1, 0, [⟨"A", "Accepted", 4⟩], []⟩ rfl
  exact ⟨h.1.2.2.1, h.2.1⟩

/-- Flat view of the submission lists the query iterates over, in the same
order (problems in ascending letter order, then recording order). -/
def teamSubs (t : Team) : List Submission :=
  t.problems.foldl (fun acc p => acc ++ p.2.submissions) []

theorem foldl_queryStep_append (problem status : String) :
    ∀ (l1 l2 : List Submission) (acc : Option Submission),
      (l1 ++ l2).foldl (queryStep problem status) acc
        = l2.foldl (queryStep problem status) (l1.foldl (queryStep problem status) acc) := by
  intro l1 l2 acc
  exact List.foldl_append _ _ _ _

theorem teamSubs_acc (problem status : String) (mp : List (Nat × ProblemStatus)) :
    ∀ (l : List Submission) (acc : Option Submission),
      mp.foldl (fun best p => p.2.submissions.foldl (queryStep problem status) best)
          (l.foldl (queryStep problem status) acc)
        = (mp.foldl (fun a p => a ++ p.2.submissions) l).foldl (queryStep problem status) acc := by
  induction mp with
  | nil => intro l acc; rfl
  | cons p mp ih =>
    intro l acc
    simp only [List.foldl_cons]
    rw [← foldl_queryStep_append problem status l p.2.submissions acc]
    exact ih (l ++ p.2.submissions) acc

theorem querySubmission_eq_foldl (t : Team) (problem status : String) :
    querySubmission t problem status
      = (teamSubs t).foldl (queryStep problem status) none := by
  unfold querySubmission teamSubs
  have h := teamSubs_acc problem status t.problems [] none
  simpa using h

theorem queryFold_some_acc (problem status : String) :
    ∀ (L : List Submission) (c b : Submission),
      L.foldl (queryStep problem status) (some c) = some b →
      (b = c ∧ ∀ x ∈ L, matchFilter problem status x = true → x.time ≤ c.time)
      ∨ (∃ l1 l2, L = l1 ++ b :: l2 ∧ matchFilter problem status b = true ∧ c.time < b.time ∧
          (∀ x ∈ l1, matchFilter problem status x = true → x.time < b.time) ∧
          (∀ x ∈ l2, matchFilter problem status x = true → x.time ≤ b.time)) := by
  intro L
  induction L with
  | nil =>
    intro c b h
    simp at h
    exact Or.inl ⟨h.symm, by simp⟩
  | cons x L ih =>
    intro c b h
    simp only [List.foldl_cons] at h
    by_cases hm : matchFilter problem status x = true
    · by_cases ht : c.time < x.time
      · rw [show queryStep problem status (some c) x = some x by
          simp [queryStep, hm, ht]] at h
        rcases ih x b h with ⟨hb, hall⟩ | ⟨l1, l2, hdec, hmb, hcb, h1, h2⟩
        · subst hb
          exact Or.inr ⟨[], L, by simp, hm, ht, by simp, hall⟩
        · refine Or.inr ⟨x :: l1, l2, by simp [hdec], hmb, lt_trans ht hcb, ?_, h2⟩
          intro y hy hmy
          rcases List.mem_cons.mp hy with hy | hy
          · subst hy; exact hcb
          · exact h1 y hy hmy
      · rw [show queryStep problem status (some c) x = some c by
          simp [queryStep, hm, ht]] at h
        rcases ih c b h with ⟨hb, hall⟩ | ⟨l1, l2, hdec, hmb, hcb, h1, h2⟩
        · refine Or.inl ⟨hb, ?_⟩
          intro y hy hmy
          rcases List.mem_cons.mp hy with hy | hy
          · subst hy; exact le_of_not_lt ht
          · exact hall y hy hmy
        · refine Or.inr ⟨x :: l1, l2, by simp [hdec], hmb, hcb, ?_, h2⟩
          intro y hy hmy
          rcases List.mem_cons.mp hy with hy | hy
          · subst hy; exact lt_of_le_of_lt (le_of_not_lt ht) hcb
          · exact h1 y hy hmy
    · rw [show queryStep problem status (some c) x = some c by
        simp [queryStep, hm]] at h
      rcases ih c b h with ⟨hb, hall⟩ | ⟨l1, l2, hdec, hmb, hcb, h1, h2⟩
      · refine Or.inl ⟨hb, ?_⟩
        intro y hy hmy
        rcases List.mem_cons.mp hy with hy | hy
        · subst hy; exact absurd hmy hm
        · exact hall y hy hmy
      · refine Or.inr ⟨x :: l1, l2, by simp [hdec], hmb, hcb, ?_, h2⟩
        intro y hy hmy
        rcases List.mem_cons.mp hy with hy | hy
        · subst hy; exact absurd hmy hm
        · exact h1 y hy hmy

theorem queryFold_some (problem status : String) :
    ∀ (L : List Submission) (b : Submission),
      L.foldl (queryStep problem status) none = some b →
      ∃ l1 l2, L = l1 ++ b :: l2 ∧ matchFilter problem status b = true ∧
        (∀ x ∈ l1, matchFilter problem status x = true → x.time < b.time) ∧
        (∀ x ∈ l2, matchFilter problem status x = true → x.time ≤ b.time) := by
  intro L
  induction L with
  | nil => intro b h; simp at h
  | cons x L ih =>
    intro b h
    simp only [List.foldl_cons] at h
    by_cases hm : matchFilter problem status x = true
    · rw [show queryStep problem status none x = some x by simp [queryStep, hm]] at h
      rcases queryFold_some_acc problem status L x b h with ⟨hb, hall⟩ | ⟨l1, l2, hdec, hmb, hxb, h1, h2⟩
      · subst hb
        exact ⟨[], L, by simp, hm, by simp, hall⟩
      · refine ⟨x :: l1, l2, by simp [hdec], hmb, ?_, h2⟩
        intro y hy hmy
        rcases List.mem_cons.mp hy with hy | hy
        · subst hy; exact hxb
        · exact h1 y hy hmy
    · rw [show queryStep problem status none x = none by simp [queryStep, hm]] at h
      rcases ih b h with ⟨l1, l2, hdec, hmb, h1, h2⟩
      refine ⟨x :: l1, l2, by simp [hdec], hmb, ?_, h2⟩
      intro y hy hmy
      rcases List.mem_cons.mp hy with hy | hy
      · subst hy; exact absurd hmy hm
      · exact h1 y hy hmy

theorem queryFold_isSome (problem status : String) :
    ∀ (L : List Submission) (c : Submission),
      (L.foldl (queryStep problem status) (some c)).isSome = true := by
  intro L
  induction L with
  | nil => intro c; rfl
  | cons x L ih =>
    intro c
    simp only [List.foldl_cons]
    unfold queryStep
    split
    · split
      · exact ih x
      · split
        · exact ih x
        · exact ih c
    · exact ih c

theorem queryFold_none (problem status : String) :
    ∀ (L : List Submission),
      L.foldl (queryStep problem status) none = none →
      ∀ x ∈ L, matchFilter problem status x = false := by
  intro L
  induction L with
  | nil => intro _ x hx; simp at hx
  | cons y L ih =>
    intro h x hx
    simp only [List.foldl_cons] at h
    by_cases hm : matchFilter problem status y = true
    · rw [show queryStep problem status none y = some y by simp [queryStep, hm]] at h
      have := queryFold_isSome problem status L y
      rw [h] at this
      simp at this
    · rw [show queryStep problem status none y = none by simp [queryStep, hm]] at h
      rcases List.mem_cons.mp hx with hx | hx
      · subst hx; simpa using hm
      · exact ih h x hx

/-- Concrete run for the submission-query claims: a settled Wrong at time 5,
then a frozen Accepted at time 10 on problem A. -/
def qcCmds1 : List Cmd :=
  [Cmd.addTeam "alpha", Cmd.start 300 2, Cmd.submit "A" "alpha" "Wrong" 5,
   Cmd.freeze, Cmd.submit "A" "alpha" "Accepted" 10]

def qcState1 : SysState := (runCmds qcCmds1).getD initState

/-- C1 is false on the code: while the scoreboard is frozen and the frozen
Accepted submission of problem A is still pending in frozenSubs, the
submission query nevertheless returns it, because submit() records every
submission into the queried list. -/
theorem claim1_counterexample :
    qcState1.frozen = true ∧
    querySubmission (findTeamD qcState1 "alpha") "ALL" "ALL" = some ⟨"A", "Accepted", 10⟩ ∧
    (⟨"A", "Accepted", 10⟩ : Submission) ∈ (lookupPS (findTeamD qcState1 "alpha").problems 65).frozenSubs := by
  decide

/-- C1 (amended): the submission query returns the matching submission with
the greatest time among all submissions recorded for the team, frozen ones
included; every recorded matching submission has time at most the result. -/
theorem claim1_amended_query_max (t : Team) (problem status : String) (sub : Submission)
    (h : querySubmission t problem status = some sub) :
    sub ∈ teamSubs t ∧ matchFilter problem status sub = true ∧
    ∀ x ∈ teamSubs t, matchFilter problem status x = true → x.time ≤ sub.time := by
  rw [querySubmission_eq_foldl] at h
  rcases queryFold_some problem status (teamSubs t) sub h with ⟨l1, l2, hdec, hm, h1, h2⟩
  refine ⟨by rw [hdec]; simp, hm, ?_⟩
  intro x hx hmx
  rw [hdec] at hx
  rcases List.mem_append.mp hx with hx | hx
  · exact le_of_lt (h1 x hx hmx)
  · rcases List.mem_cons.mp hx with hx | hx
    · subst hx; exact le_refl _
    · exact h2 x hx hmx

theorem claim1_amended_query_max_witness :
    (⟨"A", "Accepted", 10⟩ : Submission) ∈ teamSubs (findTeamD qcState1 "alpha") := by
  exact (claim1_amended_query_max (findTeamD qcState1 "alpha") "ALL" "ALL"
    ⟨"A", "Accepted", 10⟩ (by decide)).1

/-- Concrete run for the tie-break claim: two submissions to problem A at the
same time 5, a Wrong recorded first, an Accepted recorded second. -/
def qcCmds9 : List Cmd :=
  [Cmd.addTeam "beta", Cmd.start 300 1, Cmd.submit "A" "beta" "Wrong" 5,
   Cmd.submit "A" "beta" "Accepted" 5]

def qcState9 : SysState := (runCmds qcCmds9).getD initState

/-- C9 is false on the code: both recorded submissions match the ALL/ALL
filters with the same greatest time 5; the last-recorded one is the
Accepted, but the query keeps a match only on strictly greater time and so
returns the first-recorded Wrong. -/
theorem claim9_counterexample :
    teamSubs (findTeamD qcState9 "beta") = [⟨"A", "Wrong", 5⟩, ⟨"A", "Accepted", 5⟩] ∧
    querySubmission (findTeamD qcState9 "beta") "ALL" "ALL" = some ⟨"A", "Wrong", 5⟩ := by
  decide

/-- C9 (amended): among submissions tied at the greatest matching time, the
query returns the first one encountered in its iteration order (problems in
ascending letter order, each submission list in recording order): every
earlier match is strictly smaller, every later match no greater. -/
theorem claim9_amended_first_of_max (t : Team) (problem status : String) (sub : Submission)
    (h : querySubmission t problem status = some sub) :
    ∃ l1 l2, teamSubs t = l1 ++ sub :: l2 ∧ matchFilter problem status sub = true ∧
      (∀ x ∈ l1, matchFilter problem status x = true → x.time < sub.time) ∧
      (∀ x ∈ l2, matchFilter problem status x = true → x.time ≤ sub.time) := by
  rw [querySubmission_eq_foldl] at h
  exact queryFold_some problem status (teamSubs t) sub h

theorem claim9_amended_first_of_max_witness :
    matchFilter "ALL" "ALL" (⟨"A", "Wrong", 5⟩ : Submission) = true := by
  obtain ⟨l1, l2, hdec, hm, h1, h2⟩ := claim9_amended_first_of_max
    (findTeamD qcState9 "beta") "ALL" "ALL" ⟨"A", "Wrong", 5⟩ (by decide)
  exact hm

/-- C7 is wrong about submissions naming an unknown team: submit() indexes
the team map without any existence check, so the C++ code inserts a null
Team pointer and dereferences it (a crash, modelled as none), instead of
reporting a failure and leaving the state unchanged. The other guarded
operations do absorb their failures without touching core state. -/
theorem claim7_unknown_team_submit_crash :
    runCmds [Cmd.addTeam "alpha", Cmd.start 300 3, Cmd.submit "A" "ghost" "Accepted" 10] = none ∧
    step { initState with frozen := true } Cmd.freeze = some { initState with frozen := true } ∧
    step initState Cmd.scroll = some initState ∧
    step initState (Cmd.queryRanking "ghost") = some initState := by
  decide

def hasFrozen (t : Team) (pc : Nat) : Prop :=
  ∃ j, j < pc ∧ 0 < (lookupPS t.problems (65 + j)).frozenSubmissions

theorem sfo_succ (t : Team) (n : Nat) :
    smallestFrozenOf t (n + 1)
      = (if 0 < (lookupPS t.problems (65 + n)).frozenSubmissions
         then min (smallestFrozenOf t n) (65 + n) else smallestFrozenOf t n) := by
  unfold smallestFrozenOf
  rw [List.range_succ, List.foldl_append]
  simp

theorem sfo_cases (t : Team) :
    ∀ pc : Nat, smallestFrozenOf t pc = 91 ∨
      ∃ j, j < pc ∧ smallestFrozenOf t pc = 65 + j ∧
        0 < (lookupPS t.problems (65 + j)).frozenSubmissions := by
  intro pc
  induction pc with
  | zero => left; rfl
  | succ n ih =>
    rw [sfo_succ]
    by_cases h : 0 < (lookupPS t.problems (65 + n)).frozenSubmissions
    · simp only [h, if_true]
      rcases ih with h91 | ⟨j, hj, heq, hfro⟩
      · rw [h91]
        rcases Nat.le_total 91 (65 + n) with hle | hle
        · left; simp [Nat.min_eq_left hle]
        · right; exact ⟨n, Nat.lt_succ_self n, by simp [Nat.min_eq_right hle], h⟩
      · rw [heq]
        rcases Nat.le_total (65 + j) (65 + n) with hle | hle
        · right; exact ⟨j, Nat.lt_succ_of_lt hj, by simp [Nat.min_eq_left hle], hfro⟩
        · right; exact ⟨n, Nat.lt_succ_self n, by simp [Nat.min_eq_right hle], h⟩
    · simp only [h, if_false]
      rcases ih with h91 | ⟨j, hj, heq, hfro⟩
      · left; exact h91
      · right; exact ⟨j, Nat.lt_succ_of_lt hj, heq, hfro⟩

theorem sfo_min (t : Team) :
    ∀ pc j : Nat, j < pc → 0 < (lookupPS t.problems (65 + j)).frozenSubmissions →
      smallestFrozenOf t pc ≤ 65 + j := by
  intro pc
  induction pc with
  | zero => intro j hj; omega
  | succ n ih =>
    intro j hj hfro
    rw [sfo_succ]
    rcases Nat.lt_or_ge j n with hlt | hge
    · have := ih j hlt hfro
      split
      · exact le_trans (Nat.min_le_left _ _) this
      · exact this
    · have hjn : j = n := by omega
      subst hjn
      simp [hfro]

theorem sfo_le_iff (t : Team) (pc : Nat) (hpc : pc ≤ 26) :
    smallestFrozenOf t pc ≤ 90 ↔ hasFrozen t pc := by
  constructor
  · intro h
    rcases sfo_cases t pc with h91 | ⟨j, hj, _, hfro⟩
    · omega
    · exact ⟨j, hj, hfro⟩
  · rintro ⟨j, hj, hfro⟩
    have := sfo_min t pc j hj hfro
    omega

theorem findTargetAux_some_char (s : SysState) :
    ∀ (l : List String) (tn : String) (pr : Nat),
      findTargetAux s l = some (tn, pr) →
      ∃ l1 l2, l = l1 ++ tn :: l2 ∧
        (∀ x ∈ l1, ¬ smallestFrozenOf (findTeamD s x) s.problemCount ≤ 90) ∧
        smallestFrozenOf (findTeamD s tn) s.problemCount = pr ∧ pr ≤ 90 := by
  intro l
  induction l with
  | nil => intro tn pr h; simp [findTargetAux] at h
  | cons n rest ih =>
    intro tn pr h
    unfold findTargetAux at h
    by_cases hc : smallestFrozenOf (findTeamD s n) s.problemCount ≤ 90
    · rw [if_pos hc] at h
      injection h with h
      injection h with h1 h2
      subst h1; subst h2
      exact ⟨[], rest, by simp, by simp, rfl, hc⟩
    · rw [if_neg hc] at h
      rcases ih tn pr h with ⟨l1, l2, hdec, hl1, heq, hle⟩
      refine ⟨n :: l1, l2, by simp [hdec], ?_, heq, hle⟩
      intro x hx
      rcases List.mem_cons.mp hx with hx | hx
      · subst hx; exact hc
      · exact hl1 x hx

theorem findTargetAux_none_char (s : SysState) :
    ∀ (l : List String), findTargetAux s l = none →
      ∀ x ∈ l, ¬ smallestFrozenOf (findTeamD s x) s.problemCount ≤ 90 := by
  intro l
  induction l with
  | nil => intro _ x hx; simp at hx
  | cons n rest ih =>
    intro h x hx
    unfold findTargetAux at h
    by_cases hc : smallestFrozenOf (findTeamD s n) s.problemCount ≤ 90
    · rw [if_pos hc] at h; exact absurd h (by simp)
    · rw [if_neg hc] at h
      rcases List.mem_cons.mp hx with hx | hx
      · subst hx; exact hc
      · exact ih h x hx

/-- C2: whenever the scroll scan selects a team and problem, the team is the
lowest-ranked one (last in the current ranking sequence) having a problem
with pending frozen submissions, and the problem is its smallest such
letter. The scroll loop re-runs this scan on the current state after every
resolution, so this holds at each iteration. -/
theorem claim2_scroll_selection (s : SysState) (teamName : String) (prob : Nat)
    (hpc : s.problemCount ≤ 26)
    (h : findTarget s = some (teamName, prob)) :
    ∃ l1 l2, s.ranking = l1 ++ teamName :: l2 ∧
      hasFrozen (findTeamD s teamName) s.problemCount ∧
      (∀ x ∈ l2, ¬ hasFrozen (findTeamD s x) s.problemCount) ∧
      0 < (lookupPS (findTeamD s teamName).problems prob).frozenSubmissions ∧
      (∃ j, j < s.problemCount ∧ prob = 65 + j) ∧
      (∀ j, j < s.problemCount →
        0 < (lookupPS (findTeamD s teamName).problems (65 + j)).frozenSubmissions →
        prob ≤ 65 + j) := by
  unfold findTarget at h
  rcases findTargetAux_some_char s s.ranking.reverse teamName prob h with
    ⟨l1, l2, hdec, hl1, heq, hle⟩
  have hrk : s.ranking = l2.reverse ++ teamName :: l1.reverse := by
    have := congrArg List.reverse hdec
    simpa [List.reverse_append] using this
  rcases sfo_cases (findTeamD s teamName) s.problemCount with h91 | ⟨j, hj, hj2, hfro⟩
  · omega
  · have hprob : prob = 65 + j := by omega
    subst hprob
    refine ⟨l2.reverse, l1.reverse, hrk, ⟨j, hj, hfro⟩, ?_, hfro, ⟨j, hj, rfl⟩, ?_⟩
    · intro x hx
      have hx' : x ∈ l1 := by simpa using hx
      rw [← sfo_le_iff _ _ hpc]
      exact hl1 x hx'
    · intro j' hj' hfro'
      have := sfo_min (findTeamD s teamName) s.problemCount j' hj' hfro'
      omega

def w2State : SysState :=
  (runCmds [Cmd.addTeam "tt", Cmd.start 300 1, Cmd.freeze,
            Cmd.submit "A" "tt" "Accepted" 7]).getD initState

theorem claim2_scroll_selection_witness :
    hasFrozen (findTeamD w2State "tt") w2State.problemCount := by
  obtain ⟨l1, l2, _, hf, _⟩ := claim2_scroll_selection w2State "tt" 65 (by decide) (by decide)
  exact hf

theorem lookup_frozen_countP (mp : List (Nat × ProblemStatus)) (k : Nat)
    (h : 0 < (lookupPS mp k).frozenSubmissions) :
    0 < mp.countP (fun p => decide (0 < p.2.frozenSubmissions)) := by
  induction mp with
  | nil => simp [lookupPS, defaultPS] at h
  | cons p rest ih =>
    rw [List.countP_cons]
    unfold lookupPS at h
    by_cases hk : p.1 = k
    · rw [if_pos hk] at h
      simp [h]
    · rw [if_neg hk] at h
      have := ih h
      omega

theorem processFrozen_clears (ps : ProblemStatus) :
    (processFrozen ps).1.frozenSubmissions = 0 ∧ (processFrozen ps).1.frozenSubs = [] :=
  ⟨rfl, rfl⟩

theorem findTeam_of_frozen (s : SysState) (tn : String) (k : Nat)
    (h : 0 < (lookupPS (findTeamD s tn).problems k).frozenSubmissions) :
    ∃ team, findTeam s tn = some team ∧ findTeamD s tn = team := by
  cases hf : findTeam s tn with
  | none =>
    rw [show findTeamD s tn = defaultTeam by simp [findTeamD, hf]] at h
    simp [defaultTeam, mkTeam, lookupPS, defaultPS] at h
  | some t => exact ⟨t, rfl, by simp [findTeamD, hf]⟩

theorem lookupPS_default_of_lt (mp : List (Nat × ProblemStatus)) (k : Nat)
    (h : ∀ p ∈ mp, k < p.1) : lookupPS mp k = defaultPS := by
  induction mp with
  | nil => rfl
  | cons p rest ih =>
    unfold lookupPS
    rw [if_neg (by have := h p (by simp); omega)]
    exact ih (fun q hq => h q (by simp [hq]))

theorem countP_insertPS_clear (mp : List (Nat × ProblemStatus)) (k : Nat) (v : ProblemStatus)
    (hwf : PMapWF mp) (hold : 0 < (lookupPS mp k).frozenSubmissions)
    (hv : v.frozenSubmissions = 0) :
    (insertPS mp k v).countP (fun p => decide (0 < p.2.frozenSubmissions)) + 1
      = mp.countP (fun p => decide (0 < p.2.frozenSubmissions)) := by
  induction mp with
  | nil => simp [lookupPS, defaultPS] at hold
  | cons p rest ih =>
    unfold insertPS
    by_cases h1 : k < p.1
    · exfalso
      rw [lookupPS_default_of_lt (p :: rest) k ?_] at hold
      · simp [defaultPS] at hold
      · intro q hq
        rcases List.mem_cons.mp hq with hq | hq
        · subst hq; exact h1
        · have := (List.pairwise_cons.mp hwf).1 q hq
          omega
    · rw [if_neg h1]
      by_cases h2 : k = p.1
      · rw [if_pos h2]
        unfold lookupPS at hold
        rw [if_pos h2.symm] at hold
        rw [List.countP_cons, List.countP_cons]
        simp [hold, hv]
      · rw [if_neg h2]
        unfold lookupPS at hold
        rw [if_neg (fun hh => h2 hh.symm)] at hold
        rw [List.countP_cons, List.countP_cons]
        have := ih (List.pairwise_cons.mp hwf).2 hold
        omega

theorem insertPS_mem (mp : List (Nat × ProblemStatus)) (k : Nat) (v : ProblemStatus) :
    ∀ x ∈ insertPS mp k v, x ∈ mp ∨ x = (k, v) := by
  induction mp with
  | nil => intro x hx; simp [insertPS] at hx; right; exact hx
  | cons p rest ih =>
    intro x hx
    unfold insertPS at hx
    by_cases h1 : k < p.1
    · rw [if_pos h1] at hx
      rcases List.mem_cons.mp hx with hx | hx
      · right; exact hx
      · left; exact hx
    · rw [if_neg h1] at hx
      by_cases h2 : k = p.1
      · rw [if_pos h2] at hx
        rcases List.mem_cons.mp hx with hx | hx
        · right; exact hx
        · left; simp [hx]
      · rw [if_neg h2] at hx
        rcases List.mem_cons.mp hx with hx | hx
        · left; simp [hx]
        · rcases ih x hx with hx | hx
          · left; simp [hx]
          · right; exact hx

theorem insertPS_wf (mp : List (Nat × ProblemStatus)) (k : Nat) (v : ProblemStatus)
    (hwf : PMapWF mp) : PMapWF (insertPS mp k v) := by
  induction mp with
  | nil => simp [insertPS, PMapWF]
  | cons p rest ih =>
    unfold insertPS
    have hp := List.pairwise_cons.mp hwf
    by_cases h1 : k < p.1
    · rw [if_pos h1]
      refine List.pairwise_cons.mpr ⟨?_, hwf⟩
      intro q hq
      rcases List.mem_cons.mp hq with hq | hq
      · subst hq; exact h1
      · have := hp.1 q hq; omega
    · rw [if_neg h1]
      by_cases h2 : k = p.1
      · rw [if_pos h2]
        refine List.pairwise_cons.mpr ⟨?_, hp.2⟩
        intro q hq
        have := hp.1 q hq; omega
      · rw [if_neg h2]
        refine List.pairwise_cons.mpr ⟨?_, ih hp.2⟩
        intro q hq
        rcases insertPS_mem rest k v q hq with hq | hq
        · exact hp.1 q hq
        · subst hq; omega

theorem updTeams_mem (ts : List Team) (t' : Team) :
    ∀ x ∈ updTeams ts t', x ∈ ts ∨ x = t' := by
  induction ts with
  | nil => intro x hx; simp [updTeams] at hx
  | cons t0 rest ih =>
    intro x hx
    unfold updTeams at hx
    by_cases h : t0.name = t'.name
    · rw [if_pos h] at hx
      rcases List.mem_cons.mp hx with hx | hx
      · right; exact hx
      · left; simp [hx]
    · rw [if_neg h] at hx
      rcases List.mem_cons.mp hx with hx | hx
      · left; simp [hx]
      · rcases ih x hx with hx | hx
        · left; simp [hx]
        · right; exact hx

theorem findTeam_name (s : SysState) (tn : String) (team : Team)
    (h : findTeam s tn = some team) : team.name = tn := by
  have := List.find?_some h
  simpa using this

theorem updTeams_sum (ts : List Team) (tn : String) (team t' : Team)
    (hfind : ts.find? (fun t => t.name = tn) = some team) (hname : t'.name = tn) :
    ((updTeams ts t').map frozenPairsTeam).sum + frozenPairsTeam team
      = (ts.map frozenPairsTeam).sum + frozenPairsTeam t' := by
  induction ts with
  | nil => simp at hfind
  | cons t0 rest ih =>
    by_cases h : t0.name = tn
    · rw [List.find?_cons_of_pos _ (by simp [h])] at hfind
      injection hfind with hfind
      subst hfind
      unfold updTeams
      rw [if_pos (by rw [h, hname])]
      simp only [List.map_cons, List.sum_cons]
      omega
    · rw [List.find?_cons_of_neg _ (by simp [h])] at hfind
      unfold updTeams
      rw [if_neg (by rw [hname]; exact h)]
      simp only [List.map_cons, List.sum_cons]
      have := ih hfind
      omega

theorem find_updTeams (ts : List Team) (tn : String) (team t' : Team)
    (hfind : ts.find? (fun t => t.name = tn) = some team) (hname : t'.name = tn) :
    (updTeams ts t').find? (fun t => t.name = tn) = some t' := by
  induction ts with
  | nil => simp at hfind
  | cons t0 rest ih =>
    by_cases h : t0.name = tn
    · unfold updTeams
      rw [if_pos (by rw [h, hname])]
      exact List.find?_cons_of_pos _ (by simp [hname])
    · rw [List.find?_cons_of_neg _ (by simp [h])] at hfind
      unfold updTeams
      rw [if_neg (by rw [hname]; exact h)]
      rw [List.find?_cons_of_neg _ (by simp [h])]
      exact ih hfind

/-- Team state after the resolution part of one scroll iteration. -/
def resolvedTeam (s : SysState) (tn : String) (pr : Nat) : Team :=
  { findTeamD s tn with
      problems := insertPS (findTeamD s tn).problems pr
        (processFrozen (lookupPS (findTeamD s tn).problems pr)).1 }

theorem resolveOne_teams (s : SysState) (tn : String) (pr : Nat) :
    (resolveOne s tn pr).1.teams = updTeams s.teams (resolvedTeam s tn pr) ∨
    (resolveOne s tn pr).1.teams
      = updTeams (updTeams s.teams (resolvedTeam s tn pr))
          (invalidateCache (resolvedTeam s tn pr)) := by
  unfold resolveOne resolvedTeam
  dsimp only
  split
  · split
    · right; rfl
    · right; rfl
  · left; rfl

theorem frozenPairsTeam_resolvedTeam (s : SysState) (tn : String) (pr : Nat)
    (hwf : PMapWF (findTeamD s tn).problems)
    (hfro : 0 < (lookupPS (findTeamD s tn).problems pr).frozenSubmissions) :
    frozenPairsTeam (resolvedTeam s tn pr) + 1 = frozenPairsTeam (findTeamD s tn) := by
  unfold resolvedTeam frozenPairsTeam
  exact countP_insertPS_clear _ _ _ hwf hfro (processFrozen_clears _).1

theorem resolveOne_frozenPairs (s : SysState) (tn : String) (pr : Nat) (hwf : TeamsWF s)
    (hfro : 0 < (lookupPS (findTeamD s tn).problems pr).frozenSubmissions) :
    frozenPairs (resolveOne s tn pr).1 + 1 = frozenPairs s := by
  obtain ⟨team, hfind, hD⟩ := findTeam_of_frozen s tn pr hfro
  have hname : team.name = tn := findTeam_name s tn team hfind
  have hmem : team ∈ s.teams := List.mem_of_find?_eq_some hfind
  have hwft : PMapWF (findTeamD s tn).problems := by rw [hD]; exact hwf team hmem
  have hfp := frozenPairsTeam_resolvedTeam s tn pr hwft hfro
  have hrname : (resolvedTeam s tn pr).name = tn := by
    unfold resolvedTeam
    rw [hD]
    exact hname
  rw [hD] at hfp
  rcases resolveOne_teams s tn pr with h | h
  · unfold frozenPairs
    rw [h]
    have := updTeams_sum s.teams tn team (resolvedTeam s tn pr) hfind hrname
    omega
  · unfold frozenPairs
    rw [h]
    have h1 := updTeams_sum s.teams tn team (resolvedTeam s tn pr) hfind hrname
    have h2 := updTeams_sum (updTeams s.teams (resolvedTeam s tn pr)) tn
        (resolvedTeam s tn pr) (invalidateCache (resolvedTeam s tn pr))
        (find_updTeams s.teams tn team (resolvedTeam s tn pr) hfind hrname)
        (by simpa [invalidateCache] using hrname)
    have h3 : frozenPairsTeam (invalidateCache (resolvedTeam s tn pr))
        = frozenPairsTeam (resolvedTeam s tn pr) := rfl
    omega

theorem resolveOne_TeamsWF (s : SysState) (tn : String) (pr : Nat) (hwf : TeamsWF s) :
    TeamsWF (resolveOne s tn pr).1 := by
  have hwfr : PMapWF (resolvedTeam s tn pr).problems := by
    unfold resolvedTeam
    apply insertPS_wf
    cases hf : findTeam s tn with
    | none =>
      rw [show findTeamD s tn = defaultTeam by simp [findTeamD, hf]]
      simp [defaultTeam, mkTeam, PMapWF]
    | some t =>
      rw [show findTeamD s tn = t by simp [findTeamD, hf]]
      exact hwf t (List.mem_of_find?_eq_some hf)
  intro x hx
  rcases resolveOne_teams s tn pr with h | h
  · rw [h] at hx
    rcases updTeams_mem _ _ x hx with hx | hx
    · exact hwf x hx
    · subst hx; exact hwfr
  · rw [h] at hx
    rcases updTeams_mem _ _ x hx with hx | hx
    · rcases updTeams_mem _ _ x hx with hx | hx
      · exact hwf x hx
      · subst hx; exact hwfr
    · subst hx
      simpa [invalidateCache, PMapWF] using hwfr

theorem findTarget_frozen (s : SysState) (tn : String) (pr : Nat)
    (h : findTarget s = some (tn, pr)) :
    0 < (lookupPS (findTeamD s tn).problems pr).frozenSubmissions := by
  unfold findTarget at h
  rcases findTargetAux_some_char s _ tn pr h with ⟨l1, l2, _, _, heq, hle⟩
  rcases sfo_cases (findTeamD s tn) s.problemCount with h91 | ⟨j, hj, hj2, hfro⟩
  · omega
  · have hpr : pr = 65 + j := by omega
    rw [hpr]
    exact hfro

theorem findTarget_frozenPairs_pos (s : SysState) (tn : String) (pr : Nat)
    (h : findTarget s = some (tn, pr)) : 0 < frozenPairs s := by
  have hfro := findTarget_frozen s tn pr h
  obtain ⟨team, hfind, hD⟩ := findTeam_of_frozen s tn pr hfro
  have hmem : team ∈ s.teams := List.mem_of_find?_eq_some hfind
  have h1 : 0 < frozenPairsTeam team := by
    rw [hD] at hfro
    exact lookup_frozen_countP _ _ hfro
  have h2 : frozenPairsTeam team ≤ (s.teams.map frozenPairsTeam).sum :=
    List.single_le_sum (by intro x _; exact Nat.zero_le x) _ (List.mem_map_of_mem _ hmem)
  unfold frozenPairs
  omega

theorem scrollLoop_no_target (fuel : Nat) :
    ∀ (s : SysState) (acc : List RankRec), TeamsWF s → frozenPairs s ≤ fuel →
      findTarget ((scrollLoop fuel s acc).1) = none := by
  induction fuel with
  | zero =>
    intro s acc _ hle
    cases h : findTarget s with
    | none => exact h
    | some tp =>
      exfalso
      have := findTarget_frozenPairs_pos s tp.1 tp.2 (by rw [h])
      omega
  | succ fuel ih =>
    intro s acc hwf hle
    cases h : findTarget s with
    | none => simp [scrollLoop, h]
    | some tp =>
      have hstep : scrollLoop (fuel + 1) s acc
          = scrollLoop fuel (resolveOne s tp.1 tp.2).1
              (acc ++ (resolveOne s tp.1 tp.2).2.toList) := by
        simp [scrollLoop, h]
      rw [hstep]
      have hfro := findTarget_frozen s tp.1 tp.2 (by rw [h])
      have hdec := resolveOne_frozenPairs s tp.1 tp.2 hwf hfro
      exact ih _ _ (resolveOne_TeamsWF s tp.1 tp.2 hwf) (by omega)

/-- C10: the scroll loop terminates on every state whose problem maps are
well formed. Each iteration that finds a target clears exactly one
(team, problem) pair with pending frozen submissions, so the number of such
pairs strictly decreases, and with that many iterations of fuel the loop
exits with no target left. -/
theorem claim10_scroll_terminates (s : SysState) (hwf : TeamsWF s) :
    (∀ teamName prob, findTarget s = some (teamName, prob) →
        frozenPairs (resolveOne s teamName prob).1 + 1 = frozenPairs s) ∧
    (∀ fuel acc, frozenPairs s ≤ fuel → findTarget ((scrollLoop fuel s acc).1) = none) := by
  constructor
  · intro tn pr h
    exact resolveOne_frozenPairs s tn pr hwf (findTarget_frozen s tn pr h)
  · intro fuel acc hle
    exact scrollLoop_no_target fuel s acc hwf hle

def pmapWFB : List (Nat × ProblemStatus) → Bool
  | [] => true
  | p :: rest => rest.all (fun q => p.1 < q.1) && pmapWFB rest

theorem pmapWFB_iff (mp : List (Nat × ProblemStatus)) : pmapWFB mp = true ↔ PMapWF mp := by
  induction mp with
  | nil => simp [pmapWFB, PMapWF]
  | cons p rest ih =>
    simp only [pmapWFB, Bool.and_eq_true, List.all_eq_true, PMapWF, List.pairwise_cons]
    constructor
    · rintro ⟨h1, h2⟩
      exact ⟨fun q hq => by simpa using h1 q hq, (ih.mp h2)⟩
    · rintro ⟨h1, h2⟩
      exact ⟨fun q hq => by simpa using h1 q hq, ih.mpr h2⟩

def teamsWFB (s : SysState) : Bool := s.teams.all (fun t => pmapWFB t.problems)

theorem teamsWFB_iff (s : SysState) : teamsWFB s = true ↔ TeamsWF s := by
  simp only [teamsWFB, List.all_eq_true, TeamsWF]
  constructor
  · intro h t ht
    exact (pmapWFB_iff t.problems).mp (h t ht)
  · intro h t ht
    exact (pmapWFB_iff t.problems).mpr (h t ht)

def w10State : SysState :=
  (runCmds [Cmd.addTeam "ua", Cmd.addTeam "ub", Cmd.start 300 2, Cmd.freeze,
            Cmd.submit "A" "ua" "Accepted" 9, Cmd.submit "B" "ub" "Wrong" 11]).getD initState

theorem claim10_scroll_terminates_witness :
    findTarget ((scrollLoop (frozenPairs w10State) w10State []).1) = none := by
  exact (claim10_scroll_terminates w10State ((teamsWFB_iff w10State).mp (by decide))).2
    (frozenPairs w10State) [] (le_refl _)

theorem idxAux_mem (l : List String) (x : String) (h : x ∈ l) :
    ∃ i, idxAux l x = some i ∧ i < l.length ∧ l.getD i "" = x := by
  induction l with
  | nil => simp at h
  | cons y ys ih =>
    by_cases hy : y = x
    · exact ⟨0, by simp [idxAux, hy], by simp, by simp [hy]⟩
    · have hx : x ∈ ys := by
        rcases List.mem_cons.mp h with h | h
        · exact absurd h.symm hy
        · exact h
      rcases ih hx with ⟨i, h1, h2, h3⟩
      exact ⟨i + 1, by simp [idxAux, hy, h1], by simpa using h2, by simpa using h3⟩

theorem idxOfD_mem (l : List String) (x : String) (h : x ∈ l) :
    idxOfD l x < l.length ∧ l.getD (idxOfD l x) "" = x := by
  rcases idxAux_mem l x h with ⟨i, h1, h2, h3⟩
  unfold idxOfD
  rw [h1]
  exact ⟨h2, h3⟩

theorem lookupPS_insertPS (mp : List (Nat × ProblemStatus)) (k : Nat) (v : ProblemStatus) :
    lookupPS (insertPS mp k v) k = v := by
  induction mp with
  | nil => simp [insertPS, lookupPS]
  | cons p rest ih =>
    unfold insertPS
    by_cases h1 : k < p.1
    · rw [if_pos h1]
      simp [lookupPS]
    · rw [if_neg h1]
      by_cases h2 : k = p.1
      · rw [if_pos h2]
        simp [lookupPS]
      · rw [if_neg h2]
        unfold lookupPS
        rw [if_neg (fun hh => h2 hh.symm)]
        exact ih

theorem bubble_le (s : SysState) (tn : String) : ∀ n, bubble s tn n ≤ n := by
  intro n
  induction n with
  | zero => exact le_refl 0
  | succ n ih =>
    unfold bubble
    split
    · exact le_trans ih (Nat.le_succ n)
    · exact le_refl _

theorem bubble_compare (s : SysState) (tn : String) :
    ∀ n k, bubble s tn n ≤ k → k < n →
      compareTeams (findTeamD s tn) (findTeamD s (s.ranking.getD k "")) = true := by
  intro n
  induction n with
  | zero => intro k _ hk; omega
  | succ n ih =>
    intro k h1 h2
    unfold bubble at h1
    by_cases hc : compareTeams (findTeamD s tn) (findTeamD s (s.ranking.getD n "")) = true
    · rw [if_pos hc] at h1
      rcases Nat.lt_or_ge k n with hk | hk
      · exact ih k h1 hk
      · have : k = n := by omega
        subst this
        exact hc
    · rw [if_neg hc] at h1
      omega

theorem bubble_stop (s : SysState) (tn : String) :
    ∀ n, 0 < bubble s tn n →
      compareTeams (findTeamD s tn) (findTeamD s (s.ranking.getD (bubble s tn n - 1) "")) = false := by
  intro n
  induction n with
  | zero => intro h; simp [bubble] at h
  | succ n ih =>
    intro h
    unfold bubble at h ⊢
    by_cases hc : compareTeams (findTeamD s tn) (findTeamD s (s.ranking.getD n "")) = true
    · rw [if_pos hc] at h ⊢
      exact ih h
    · rw [if_neg hc] at h ⊢
      simpa using hc

theorem getD_insAt_self (x d : String) :
    ∀ (n : Nat) (l : List String), n ≤ l.length → (insAt n x l).getD n d = x := by
  intro n
  induction n with
  | zero => intro l _; cases l <;> rfl
  | succ n ih =>
    intro l hl
    cases l with
    | nil => simp at hl
    | cons y l =>
      show (insAt n x l).getD n d = x
      exact ih l (by simpa using hl)

theorem findTeam_updTeam_self (s : SysState) (tn : String) (team t' : Team)
    (hfind : findTeam s tn = some team) (hname : t'.name = tn) :
    findTeam (updTeam s t') tn = some t' :=
  find_updTeams s.teams tn team t' hfind hname

theorem resolvedTeam_name (s : SysState) (tn : String) (pr : Nat) (team : Team)
    (hfind : findTeam s tn = some team) : (resolvedTeam s tn pr).name = tn := by
  unfold resolvedTeam
  have hD : findTeamD s tn = team := by simp [findTeamD, hfind]
  rw [hD]
  exact findTeam_name s tn team hfind

theorem resolveOne_changed_eq (s : SysState) (tn : String) (pr : Nat)
    (hch : (processFrozen (lookupPS (findTeamD s tn).problems pr)).2 = true) :
    resolveOne s tn pr =
      (let oldRank := idxOfD s.ranking tn
       let t2 := invalidateCache (resolvedTeam s tn pr)
       let s2 := updTeam (updTeam s (resolvedTeam s tn pr)) t2
       let newRank := bubble s2 tn oldRank
       if newRank < oldRank then
         ({ s2 with ranking := insAt newRank tn (s.ranking.eraseIdx oldRank) },
          some ⟨tn, (insAt newRank tn (s.ranking.eraseIdx oldRank)).getD (newRank + 1) "",
                getSolvedCount t2, getPenaltyTime t2⟩)
       else (s2, none)) := by
  unfold resolveOne resolvedTeam
  dsimp only
  rw [hch]
  rfl

/-- C4: after a resolution makes a problem solved, the team's cache is
invalidated and the team bubbles upward exactly while it compares better
than the team immediately above; one rank-change record {team, team now
immediately below it, new solvedCount, new penalty} is emitted if and only
if the computed position moved up, and when it did not move nothing is
emitted while the resolution stays applied to the team map. -/
theorem claim4_solved_reposition (s : SysState) (tn : String) (pr : Nat)
    (hfind : (findTeam s tn).isSome = true)
    (hmem : tn ∈ s.ranking)
    (hch : (processFrozen (lookupPS (findTeamD s tn).problems pr)).2 = true) :
    let oldRank := idxOfD s.ranking tn
    let t2 := invalidateCache (resolvedTeam s tn pr)
    let s2 := updTeam (updTeam s (resolvedTeam s tn pr)) t2
    let newRank := bubble s2 tn oldRank
    ((resolveOne s tn pr).1.teams = s2.teams ∧
     findTeamD s2 tn = t2 ∧
     lookupPS t2.problems pr = (processFrozen (lookupPS (findTeamD s tn).problems pr)).1) ∧
    (newRank ≤ oldRank ∧ oldRank < s.ranking.length ∧ s.ranking.getD oldRank "" = tn ∧
     (∀ k, newRank ≤ k → k < oldRank →
        compareTeams t2 (findTeamD s2 (s.ranking.getD k "")) = true) ∧
     (0 < newRank →
        compareTeams t2 (findTeamD s2 (s.ranking.getD (newRank - 1) "")) = false)) ∧
    ((resolveOne s tn pr).2.isSome = true ↔ newRank < oldRank) ∧
    (newRank < oldRank →
      (resolveOne s tn pr).1.ranking = insAt newRank tn (s.ranking.eraseIdx oldRank) ∧
      (insAt newRank tn (s.ranking.eraseIdx oldRank)).getD newRank "" = tn ∧
      (resolveOne s tn pr).2 = some ⟨tn,
          (insAt newRank tn (s.ranking.eraseIdx oldRank)).getD (newRank + 1) "",
          computeSolved t2.problems, computePenalty t2.problems⟩) ∧
    (¬ newRank < oldRank →
      (resolveOne s tn pr).1.ranking = s.ranking ∧ (resolveOne s tn pr).2 = none) := by
  obtain ⟨team, hfd⟩ := Option.isSome_iff_exists.mp hfind
  have hname1 : (resolvedTeam s tn pr).name = tn := resolvedTeam_name s tn pr team hfd
  have hf1 : findTeam (updTeam s (resolvedTeam s tn pr)) tn = some (resolvedTeam s tn pr) :=
    findTeam_updTeam_self s tn team (resolvedTeam s tn pr) hfd hname1
  have hname2 : (invalidateCache (resolvedTeam s tn pr)).name = tn := hname1
  have hf2 : findTeam (updTeam (updTeam s (resolvedTeam s tn pr))
      (invalidateCache (resolvedTeam s tn pr))) tn
      = some (invalidateCache (resolvedTeam s tn pr)) :=
    findTeam_updTeam_self (updTeam s (resolvedTeam s tn pr)) tn (resolvedTeam s tn pr)
      (invalidateCache (resolvedTeam s tn pr)) hf1 hname2
  have hD2 : findTeamD (updTeam (updTeam s (resolvedTeam s tn pr))
      (invalidateCache (resolvedTeam s tn pr))) tn = invalidateCache (resolvedTeam s tn pr) := by
    simp [findTeamD, hf2]
  have hidx := idxOfD_mem s.ranking tn hmem
  have heq := resolveOne_changed_eq s tn pr hch
  dsimp only
  dsimp only at heq
  constructor
  · refine ⟨?_, hD2, ?_⟩
    · rw [heq]
      split
      · rfl
      · rfl
    · show lookupPS (insertPS (findTeamD s tn).problems pr _) pr = _
      exact lookupPS_insertPS _ _ _
  refine ⟨⟨bubble_le _ tn _, hidx.1, hidx.2, ?_, ?_⟩, ?_, ?_, ?_⟩
  · intro k h1 h2
    have hb := bubble_compare (updTeam (updTeam s (resolvedTeam s tn pr))
      (invalidateCache (resolvedTeam s tn pr))) tn (idxOfD s.ranking tn) k h1 h2
    rw [hD2] at hb
    exact hb
  · intro h
    have hb := bubble_stop (updTeam (updTeam s (resolvedTeam s tn pr))
      (invalidateCache (resolvedTeam s tn pr))) tn (idxOfD s.ranking tn) h
    rw [hD2] at hb
    exact hb
  · rw [heq]
    by_cases hlt : bubble (updTeam (updTeam s (resolvedTeam s tn pr))
        (invalidateCache (resolvedTeam s tn pr))) tn (idxOfD s.ranking tn) < idxOfD s.ranking tn
    · rw [if_pos hlt]
      simp [hlt]
    · rw [if_neg hlt]
      simp [hlt]
  · intro hlt
    rw [heq]
    rw [if_pos hlt]
    refine ⟨rfl, ?_, ?_⟩
    · apply getD_insAt_self
      have hln : s.ranking.length - 1 ≤ (s.ranking.eraseIdx (idxOfD s.ranking tn)).length := by
        rw [List.length_eraseIdx]
        split
        · omega
        · omega
      omega
    · have hs : getSolvedCount (invalidateCache (resolvedTeam s tn pr))
          = computeSolved (invalidateCache (resolvedTeam s tn pr)).problems :=
        getSolvedCount_of_cacheOK _ (cacheOK_invalidate _)
      have hp : getPenaltyTime (invalidateCache (resolvedTeam s tn pr))
          = computePenalty (invalidateCache (resolvedTeam s tn pr)).problems :=
        getPenaltyTime_of_cacheOK _ (cacheOK_invalidate _)
      rw [hs, hp]
  · intro hlt
    rw [heq]
    rw [if_neg hlt]
    exact ⟨rfl, rfl⟩

def w4State : SysState :=
  (runCmds [Cmd.addTeam "aa", Cmd.addTeam "bb", Cmd.start 300 2,
            Cmd.submit "A" "aa" "Accepted" 10, Cmd.freeze,
            Cmd.submit "A" "bb" "Accepted" 5]).getD initState

theorem claim4_solved_reposition_witness :
    (resolveOne w4State "bb" 65).2.isSome = true := by
  have h := claim4_solved_reposition w4State "bb" 65 (by decide) (by decide) (by decide)
  dsimp only at h
  exact h.2.2.1.mpr (by decide)

def cmpL {α : Type} [LinearOrder α] (a b : α) : Ordering :=
  if a < b then .lt else if b < a then .gt else .eq

theorem cmpL_lt_iff {α : Type} [LinearOrder α] (a b : α) : cmpL a b = .lt ↔ a < b := by
  unfold cmpL
  split_ifs with h1 h2
  · simp [h1]
  · simp [h1]
  · simp [h1]

theorem cmpL_gt_iff {α : Type} [LinearOrder α] (a b : α) : cmpL a b = .gt ↔ b < a := by
  unfold cmpL
  split_ifs with h1 h2
  · simp [asymm h1]
  · simp [h2]
  · simp [h2]

theorem cmpL_eq_iff {α : Type} [LinearOrder α] (a b : α) : cmpL a b = .eq ↔ a = b := by
  unfold cmpL
  split_ifs with h1 h2
  · simp [ne_of_lt h1]
  · simp [ne_of_gt h2]
  · simp [le_antisymm (not_lt.mp h2) (not_lt.mp h1)]

theorem cmpL_self {α : Type} [LinearOrder α] (a : α) : cmpL a a = .eq :=
  (cmpL_eq_iff a a).mpr rfl

theorem then_lt_iff (o1 o2 : Ordering) :
    o1.then o2 = .lt ↔ o1 = .lt ∨ (o1 = .eq ∧ o2 = .lt) := by
  cases o1 <;> simp [Ordering.then]

theorem then_eq_iff (o1 o2 : Ordering) :
    o1.then o2 = .eq ↔ o1 = .eq ∧ o2 = .eq := by
  cases o1 <;> simp [Ordering.then]

theorem then_swap (o1 o2 : Ordering) : (o1.then o2).swap = o1.swap.then o2.swap := by
  cases o1 <;> rfl

theorem cmpL_swap {α : Type} [LinearOrder α] (a b : α) : cmpL a b = (cmpL b a).swap := by
  rcases lt_trichotomy a b with h | h | h
  · rw [(cmpL_lt_iff a b).mpr h, (cmpL_gt_iff b a).mpr h]
    rfl
  · rw [(cmpL_eq_iff a b).mpr h, (cmpL_eq_iff b a).mpr h.symm]
    rfl
  · rw [(cmpL_gt_iff a b).mpr h, (cmpL_lt_iff b a).mpr h]
    rfl

def cmpTimes : List Int → List Int → Ordering
  | a :: l1, b :: l2 => (cmpL a b).then (cmpTimes l1 l2)
  | _, _ => .eq

theorem cmpTimes_self : ∀ l : List Int, cmpTimes l l = .eq := by
  intro l
  induction l with
  | nil => rfl
  | cons a l ih => simp [cmpTimes, cmpL_self, Ordering.then, ih]

theorem cmpTimes_swap : ∀ l1 l2 : List Int, cmpTimes l1 l2 = (cmpTimes l2 l1).swap := by
  intro l1
  induction l1 with
  | nil => intro l2; cases l2 <;> rfl
  | cons a l1 ih =>
    intro l2
    cases l2 with
    | nil => rfl
    | cons b l2 =>
      show (cmpL a b).then (cmpTimes l1 l2) = ((cmpL b a).then (cmpTimes l2 l1)).swap
      rw [then_swap, ← cmpL_swap, ih l2]

theorem cmpTimes_eq_iff : ∀ l1 l2 : List Int, l1.length = l2.length →
    (cmpTimes l1 l2 = .eq ↔ l1 = l2) := by
  intro l1
  induction l1 with
  | nil =>
    intro l2 hl
    cases l2 with
    | nil => simp [cmpTimes]
    | cons b l2 => simp at hl
  | cons a l1 ih =>
    intro l2 hl
    cases l2 with
    | nil => simp at hl
    | cons b l2 =>
      show (cmpL a b).then (cmpTimes l1 l2) = .eq ↔ _
      rw [then_eq_iff, cmpL_eq_iff, ih l2 (by simpa using hl)]
      simp

theorem cmpTimes_lt_trans : ∀ l1 l2 l3 : List Int,
    l1.length = l2.length → l2.length = l3.length →
    cmpTimes l1 l2 = .lt → cmpTimes l2 l3 = .lt → cmpTimes l1 l3 = .lt := by
  intro l1
  induction l1 with
  | nil =>
    intro l2 l3 h12 h23 c12 c23
    cases l2 with
    | nil => simp [cmpTimes] at c12
    | cons b l2 => simp at h12
  | cons a l1 ih =>
    intro l2 l3 h12 h23 c12 c23
    cases l2 with
    | nil => simp at h12
    | cons b l2 =>
      cases l3 with
      | nil => simp at h23
      | cons c l3 =>
        rw [show cmpTimes (a :: l1) (b :: l2) = (cmpL a b).then (cmpTimes l1 l2) from rfl] at c12
        rw [show cmpTimes (b :: l2) (c :: l3) = (cmpL b c).then (cmpTimes l2 l3) from rfl] at c23
        rw [show cmpTimes (a :: l1) (c :: l3) = (cmpL a c).then (cmpTimes l1 l3) from rfl]
        rw [then_lt_iff] at c12 c23 ⊢
        rcases c12 with h1 | ⟨h1, h1r⟩ <;> rcases c23 with h2 | ⟨h2, h2r⟩
        · left
          rw [cmpL_lt_iff] at h1 h2 ⊢
          exact lt_trans h1 h2
        · left
          rw [cmpL_lt_iff] at h1 ⊢
          rw [cmpL_eq_iff] at h2
          rw [← h2]
          exact h1
        · left
          rw [cmpL_lt_iff] at h2 ⊢
          rw [cmpL_eq_iff] at h1
          rw [h1]
          exact h2
        · right
          rw [cmpL_eq_iff] at h1 h2
          refine ⟨(cmpL_eq_iff a c).mpr (h1.trans h2), ?_⟩
          exact ih l2 l3 (by simpa using h12) (by simpa using h23) h1r h2r

def cmpCharList : List Char → List Char → Ordering
  | [], [] => .eq
  | [], _ :: _ => .lt
  | _ :: _, [] => .gt
  | a :: as, b :: bs => (cmpL a b).then (cmpCharList as bs)

theorem cmpCharList_self : ∀ l : List Char, cmpCharList l l = .eq := by
  intro l
  induction l with
  | nil => rfl
  | cons a l ih => simp [cmpCharList, cmpL_self, Ordering.then, ih]

theorem cmpCharList_swap : ∀ l1 l2 : List Char, cmpCharList l1 l2 = (cmpCharList l2 l1).swap := by
  intro l1
  induction l1 with
  | nil => intro l2; cases l2 <;> rfl
  | cons a l1 ih =>
    intro l2
    cases l2 with
    | nil => rfl
    | cons b l2 =>
      show (cmpL a b).then (cmpCharList l1 l2) = ((cmpL b a).then (cmpCharList l2 l1)).swap
      rw [then_swap, ← cmpL_swap, ih l2]

theorem cmpCharList_eq_iff : ∀ l1 l2 : List Char, cmpCharList l1 l2 = .eq ↔ l1 = l2 := by
  intro l1
  induction l1 with
  | nil => intro l2; cases l2 <;> simp [cmpCharList]
  | cons a l1 ih =>
    intro l2
    cases l2 with
    | nil => simp [cmpCharList]
    | cons b l2 =>
      show (cmpL a b).then (cmpCharList l1 l2) = .eq ↔ _
      rw [then_eq_iff, cmpL_eq_iff, ih l2]
      simp

theorem cmpCharList_lt_trans : ∀ l1 l2 l3 : List Char,
    cmpCharList l1 l2 = .lt → cmpCharList l2 l3 = .lt → cmpCharList l1 l3 = .lt := by
  intro l1
  induction l1 with
  | nil =>
    intro l2 l3 c12 c23
    cases l2 with
    | nil => simp [cmpCharList] at c12
    | cons b l2 =>
      cases l3 with
      | nil => simp [cmpCharList] at c23
      | cons c l3 => rfl
  | cons a l1 ih =>
    intro l2 l3 c12 c23
    cases l2 with
    | nil => simp [cmpCharList] at c12
    | cons b l2 =>
      cases l3 with
      | nil => simp [cmpCharList] at c23
      | cons c l3 =>
        rw [show cmpCharList (a :: l1) (b :: l2) = (cmpL a b).then (cmpCharList l1 l2) from rfl] at c12
        rw [show cmpCharList (b :: l2) (c :: l3) = (cmpL b c).then (cmpCharList l2 l3) from rfl] at c23
        rw [show cmpCharList (a :: l1) (c :: l3) = (cmpL a c).then (cmpCharList l1 l3) from rfl]
        rw [then_lt_iff] at c12 c23 ⊢
        rcases c12 with h1 | ⟨h1, h1r⟩ <;> rcases c23 with h2 | ⟨h2, h2r⟩
        · left
          rw [cmpL_lt_iff] at h1 h2 ⊢
          exact lt_trans h1 h2
        · left
          rw [cmpL_lt_iff] at h1 ⊢
          rw [cmpL_eq_iff] at h2
          rw [← h2]
          exact h1
        · left
          rw [cmpL_lt_iff] at h2 ⊢
          rw [cmpL_eq_iff] at h1
          rw [h1]
          exact h2
        · right
          rw [cmpL_eq_iff] at h1 h2
          exact ⟨(cmpL_eq_iff a c).mpr (h1.trans h2), ih l2 l3 h1r h2r⟩

theorem strLt_iff_cmp (a b : String) : strLt a b = true ↔ cmpCharList a.data b.data = .lt := by
  unfold strLt
  generalize a.data = l1
  generalize b.data = l2
  induction l1 generalizing l2 with
  | nil => cases l2 <;> simp [charListLt, cmpCharList]
  | cons x l1 ih =>
    cases l2 with
    | nil => simp [charListLt, cmpCharList]
    | cons y l2 =>
      show (if x < y then true else if y < x then false else charListLt l1 l2) = true ↔
        (cmpL x y).then (cmpCharList l1 l2) = .lt
      rcases lt_trichotomy x y with h | h | h
      · rw [if_pos h, (cmpL_lt_iff x y).mpr h]
        simp [Ordering.then]
      · subst h
        rw [if_neg (lt_irrefl x), if_neg (lt_irrefl x), cmpL_self]
        rw [show Ordering.eq.then (cmpCharList l1 l2) = cmpCharList l1 l2 from rfl]
        exact ih l2
      · rw [if_neg (asymm h), if_pos h, (cmpL_gt_iff x y).mpr h]
        simp [Ordering.then]

theorem eq_then (o : Ordering) : Ordering.eq.then o = o := rfl

/-- Comparator as a three-valued comparison, for the order-theoretic proofs. -/
def teamOrd (t1 t2 : Team) : Ordering :=
  (cmpL (getSolvedCount t2) (getSolvedCount t1)).then
  ((cmpL (getPenaltyTime t1) (getPenaltyTime t2)).then
  ((cmpTimes (getSolveTimes t1) (getSolveTimes t2)).then
  (cmpCharList t1.name.data t2.name.data)))

theorem timesThenName_iff : ∀ (l1 l2 : List Int) (n1 n2 : String),
    timesThenName l1 l2 n1 n2 = true ↔
    (cmpTimes l1 l2).then (cmpCharList n1.data n2.data) = .lt := by
  intro l1
  induction l1 with
  | nil =>
    intro l2 n1 n2
    cases l2 with
    | nil =>
      show strLt n1 n2 = true ↔ Ordering.eq.then (cmpCharList n1.data n2.data) = .lt
      rw [eq_then]
      exact strLt_iff_cmp n1 n2
    | cons b l2 =>
      show strLt n1 n2 = true ↔ Ordering.eq.then (cmpCharList n1.data n2.data) = .lt
      rw [eq_then]
      exact strLt_iff_cmp n1 n2
  | cons a l1 ih =>
    intro l2 n1 n2
    cases l2 with
    | nil =>
      show strLt n1 n2 = true ↔ Ordering.eq.then (cmpCharList n1.data n2.data) = .lt
      rw [eq_then]
      exact strLt_iff_cmp n1 n2
    | cons b l2 =>
      show (if a ≠ b then decide (a < b) else timesThenName l1 l2 n1 n2) = true ↔
        ((cmpL a b).then (cmpTimes l1 l2)).then (cmpCharList n1.data n2.data) = .lt
      rcases lt_trichotomy a b with h | h | h
      · rw [if_pos (ne_of_lt h), (cmpL_lt_iff a b).mpr h]
        simp [Ordering.then, h]
      · subst h
        rw [if_neg (by simp), cmpL_self, eq_then]
        exact ih l2 n1 n2
      · rw [if_pos (ne_of_gt h), (cmpL_gt_iff a b).mpr h]
        simp [Ordering.then, not_lt.mpr (le_of_lt h)]

theorem compareTeams_iff_teamOrd (t1 t2 : Team) :
    compareTeams t1 t2 = true ↔ teamOrd t1 t2 = .lt := by
  unfold compareTeams teamOrd
  dsimp only
  by_cases hs : getSolvedCount t1 = getSolvedCount t2
  · rw [if_neg (by simp [hs]), (cmpL_eq_iff _ _).mpr hs.symm, eq_then]
    by_cases hp : getPenaltyTime t1 = getPenaltyTime t2
    · rw [if_neg (by simp [hp]), (cmpL_eq_iff _ _).mpr hp, eq_then]
      exact timesThenName_iff _ _ _ _
    · rw [if_pos hp]
      rcases lt_trichotomy (getPenaltyTime t1) (getPenaltyTime t2) with h | h | h
      · rw [(cmpL_lt_iff _ _).mpr h]
        simp [Ordering.then, h]
      · exact absurd h hp
      · rw [(cmpL_gt_iff _ _).mpr h]
        simp [Ordering.then, not_lt.mpr (le_of_lt h)]
  · rw [if_pos hs]
    rcases lt_trichotomy (getSolvedCount t1) (getSolvedCount t2) with h | h | h
    · rw [(cmpL_gt_iff _ _).mpr h]
      simp [Ordering.then, not_lt.mpr (le_of_lt h)]
    · exact absurd h hs
    · rw [(cmpL_lt_iff _ _).mpr h]
      simp [Ordering.then, h]

theorem cacheOK_len (t : Team) (h : cacheOK t) :
    (getSolveTimes t).length = (t.problems.filter (fun p => p.2.solved)).length ∧
    getSolvedCount t = ((t.problems.filter (fun p => p.2.solved)).length : Int) := by
  constructor
  · rw [getSolveTimes_of_cacheOK t h]
    unfold computeTimes
    rw [sortDesc_length, collectTimes_eq_map, List.length_map]
  · rw [getSolvedCount_of_cacheOK t h, computeSolved_eq_filter]

theorem solved_eq_times_len (a b : Team) (ha : cacheOK a) (hb : cacheOK b)
    (h : getSolvedCount a = getSolvedCount b) :
    (getSolveTimes a).length = (getSolveTimes b).length := by
  have la := cacheOK_len a ha
  have lb := cacheOK_len b hb
  rw [la.1, lb.1]
  have hcast : ((a.problems.filter (fun p => p.2.solved)).length : Int)
      = ((b.problems.filter (fun p => p.2.solved)).length : Int) := by
    rw [← la.2, ← lb.2]
    exact h
  exact_mod_cast hcast

theorem teamOrd_swap (t1 t2 : Team) : teamOrd t1 t2 = (teamOrd t2 t1).swap := by
  unfold teamOrd
  rw [then_swap, then_swap, then_swap,
      ← cmpL_swap (getSolvedCount t2) (getSolvedCount t1),
      ← cmpL_swap (getPenaltyTime t1) (getPenaltyTime t2),
      ← cmpTimes_swap (getSolveTimes t1) (getSolveTimes t2),
      ← cmpCharList_swap t1.name.data t2.name.data]

theorem teamOrd_self (t : Team) : teamOrd t t = .eq := by
  unfold teamOrd
  rw [cmpL_self, cmpL_self, cmpTimes_self, cmpCharList_self]
  rfl

theorem teamOrd_eq_name (t1 t2 : Team) (h : teamOrd t1 t2 = .eq) : t1.name = t2.name := by
  unfold teamOrd at h
  rw [then_eq_iff] at h
  rw [then_eq_iff] at h
  obtain ⟨_, _, h⟩ := h
  rw [then_eq_iff] at h
  have hdat := (cmpCharList_eq_iff _ _).mp h.2
  have : String.mk t1.name.data = String.mk t2.name.data := congrArg String.mk hdat
  exact this

theorem teamOrd_lt_trans (a b c : Team) (ha : cacheOK a) (hb : cacheOK b) (hc : cacheOK c)
    (h12 : teamOrd a b = .lt) (h23 : teamOrd b c = .lt) : teamOrd a c = .lt := by
  unfold teamOrd at h12 h23 ⊢
  rw [then_lt_iff] at h12 h23 ⊢
  rcases h12 with h1 | ⟨h1, h12⟩ <;> rcases h23 with h2 | ⟨h2, h23⟩
  · left
    rw [cmpL_lt_iff] at h1 h2 ⊢
    exact lt_trans h2 h1
  · left
    rw [cmpL_lt_iff] at h1 ⊢
    rw [cmpL_eq_iff] at h2
    rw [h2]
    exact h1
  · left
    rw [cmpL_lt_iff] at h2 ⊢
    rw [cmpL_eq_iff] at h1
    rw [← h1]
    exact h2
  · have hsba : getSolvedCount b = getSolvedCount a := (cmpL_eq_iff _ _).mp h1
    have hscb : getSolvedCount c = getSolvedCount b := (cmpL_eq_iff _ _).mp h2
    right
    refine ⟨(cmpL_eq_iff _ _).mpr (hscb.trans hsba), ?_⟩
    rw [then_lt_iff] at h12 h23 ⊢
    rcases h12 with g1 | ⟨g1, h12⟩ <;> rcases h23 with g2 | ⟨g2, h23⟩
    · left
      rw [cmpL_lt_iff] at g1 g2 ⊢
      exact lt_trans g1 g2
    · left
      rw [cmpL_lt_iff] at g1 ⊢
      rw [cmpL_eq_iff] at g2
      rw [← g2]
      exact g1
    · left
      rw [cmpL_lt_iff] at g2 ⊢
      rw [cmpL_eq_iff] at g1
      rw [g1]
      exact g2
    · have hpab := (cmpL_eq_iff _ _).mp g1
      have hpbc := (cmpL_eq_iff _ _).mp g2
      right
      refine ⟨(cmpL_eq_iff _ _).mpr (hpab.trans hpbc), ?_⟩
      rw [then_lt_iff] at h12 h23 ⊢
      have hlab : (getSolveTimes a).length = (getSolveTimes b).length :=
        solved_eq_times_len a b ha hb hsba.symm
      have hlbc : (getSolveTimes b).length = (getSolveTimes c).length :=
        solved_eq_times_len b c hb hc hscb.symm
      rcases h12 with g1 | ⟨g1, h12⟩ <;> rcases h23 with g2 | ⟨g2, h23⟩
      · left
        exact cmpTimes_lt_trans _ _ _ hlab hlbc g1 g2
      · left
        have he := (cmpTimes_eq_iff _ _ hlbc).mp g2
        rw [← he]
        exact g1
      · left
        have he := (cmpTimes_eq_iff _ _ hlab).mp g1
        rw [he]
        exact g2
      · right
        have e1 := (cmpTimes_eq_iff _ _ hlab).mp g1
        have e2 := (cmpTimes_eq_iff _ _ hlbc).mp g2
        refine ⟨?_, cmpCharList_lt_trans _ _ _ h12 h23⟩
        rw [e1, e2]
        exact cmpTimes_self _

/-- C5: over teams whose cached metrics are consistent with their problem
statuses (always true at a fixed point in time in reachable states), the
ranking comparator is a strict total order: irreflexive, transitive, and
for distinct names exactly one direction holds. -/
theorem claim5_comparator_strict_total_order (a b c : Team)
    (ha : cacheOK a) (hb : cacheOK b) (hc : cacheOK c) :
    compareTeams a a = false ∧
    (compareTeams a b = true → compareTeams b c = true → compareTeams a c = true) ∧
    (a.name ≠ b.name →
      ((compareTeams a b = true ∧ ¬ compareTeams b a = true) ∨
       (compareTeams b a = true ∧ ¬ compareTeams a b = true))) := by
  refine ⟨?_, ?_, ?_⟩
  · by_contra h
    have h' : compareTeams a a = true := by simpa using h
    have hlt := (compareTeams_iff_teamOrd a a).mp h'
    rw [teamOrd_self] at hlt
    exact absurd hlt (by simp)
  · intro h1 h2
    exact (compareTeams_iff_teamOrd a c).mpr
      (teamOrd_lt_trans a b c ha hb hc ((compareTeams_iff_teamOrd a b).mp h1)
        ((compareTeams_iff_teamOrd b c).mp h2))
  · intro hn
    have hne : teamOrd a b ≠ .eq := fun h => hn (teamOrd_eq_name a b h)
    cases ho : teamOrd a b with
    | lt =>
      left
      refine ⟨(compareTeams_iff_teamOrd a b).mpr ho, ?_⟩
      intro hba
      have hlt := (compareTeams_iff_teamOrd b a).mp hba
      rw [teamOrd_swap b a, ho] at hlt
      exact absurd hlt (by simp [Ordering.swap])
    | eq => exact absurd ho hne
    | gt =>
      right
      have hba : teamOrd b a = .lt := by
        rw [teamOrd_swap b a, ho]
        rfl
      refine ⟨(compareTeams_iff_teamOrd b a).mpr hba, ?_⟩
      intro hab
      have hlt := (compareTeams_iff_teamOrd a b).mp hab
      rw [ho] at hlt
      exact absurd hlt (by simp)

def w5A : Team := ⟨"a", [(65, ⟨true, 5, 0, 0, [], []⟩)], -1, -1, [], false⟩

def w5B : Team := ⟨"b", [(65, ⟨true, 5, 0, 0, [], []⟩)], -1, -1, [], false⟩

def w5C : Team := ⟨"c", [(65, ⟨true, 7, 0, 0, [], []⟩)], -1, -1, [], false⟩

theorem claim5_comparator_strict_total_order_witness :
    compareTeams w5A w5C = true := by
  have h := claim5_comparator_strict_total_order w5A w5B w5C
    (by intro h; simp [w5A] at h) (by intro h; simp [w5B] at h) (by intro h; simp [w5C] at h)
  exact h.2.1 (by decide) (by decide)

/-- Ranking-relevant signature of a problem status. -/
def sig (ps : ProblemStatus) : Bool × Int × Int := (ps.solved, ps.solveTime, ps.wrongAttempts)

theorem submitPS_cases (frozen : Bool) (sub : Submission) (ps0 : ProblemStatus) :
    (submitPS frozen sub ps0).2 = true ∨
    ((submitPS frozen sub ps0).2 = false ∧ sig (submitPS frozen sub ps0).1 = sig ps0) := by
  unfold submitPS
  dsimp only
  by_cases h1 : frozen = true ∧ ¬ ps0.solved = true
  · right
    rw [if_pos (by simpa using h1)]
    simp [sig]
  · rw [if_neg (by simpa using h1)]
    by_cases h2 : ps0.solved = true
    · right
      rw [if_neg (by simp [h2])]
      simp [sig]
    · rw [if_pos (by simp [h2])]
      by_cases h3 : sub.status = "Accepted"
      · left; rw [if_pos h3]
      · left; rw [if_neg h3]

theorem processFold_flag_mono (l : List Submission) :
    ∀ q : ProblemStatus, (l.foldl processStep (q, true)).2 = true := by
  induction l with
  | nil => intro q; rfl
  | cons x l ih =>
    intro q
    simp only [List.foldl_cons]
    unfold processStep
    dsimp only
    by_cases h1 : ¬ (q, true).1.solved = true
    · rw [if_pos h1]
      by_cases h2 : x.status = "Accepted"
      · rw [if_pos h2]
        exact ih _
      · rw [if_neg h2]
        exact ih _
    · rw [if_neg h1]
      exact ih q

theorem processFold_not_changed (l : List Submission) :
    ∀ p : ProblemStatus, p.solved = false →
      (l.foldl processStep (p, false)).2 = false →
      (l.foldl processStep (p, false)).1.solved = false ∧
      (l.foldl processStep (p, false)).1.solveTime = p.solveTime := by
  induction l with
  | nil => intro p hs _; exact ⟨hs, rfl⟩
  | cons x l ih =>
    intro p hs hch
    simp only [List.foldl_cons] at hch ⊢
    by_cases h2 : x.status = "Accepted"
    · exfalso
      rw [show processStep (p, false) x
            = ({ p with solved := true, solveTime := x.time }, true) by
          simp [processStep, hs, h2]] at hch
      rw [processFold_flag_mono l _] at hch
      exact absurd hch (by simp)
    · rw [show processStep (p, false) x
            = ({ p with wrongAttempts := p.wrongAttempts + 1 }, false) by
          simp [processStep, hs, h2]] at hch ⊢
      exact ih _ (by simpa using hs) hch

theorem processFrozen_not_changed (ps : ProblemStatus)
    (h : (processFrozen ps).2 = false) :
    sig (processFrozen ps).1 = sig ps ∨
    (ps.solved = false ∧ (processFrozen ps).1.solved = false) := by
  by_cases hs : ps.solved = true
  · left
    unfold processFrozen
    rw [processFold_solved ps.frozenSubs (ps, false) (by simpa using hs)]
    simp [sig]
  · right
    refine ⟨by simpa using hs, ?_⟩
    unfold processFrozen at h ⊢
    dsimp only at h ⊢
    exact (processFold_not_changed ps.frozenSubs ps (by simpa using hs) h).1

theorem computes_insertPS (mp : List (Nat × ProblemStatus)) (k : Nat) (v : ProblemStatus)
    (hwf : PMapWF mp)
    (hcase : sig v = sig (lookupPS mp k) ∨
      ((lookupPS mp k).solved = false ∧ v.solved = false)) :
    computeSolved (insertPS mp k v) = computeSolved mp ∧
    computePenalty (insertPS mp k v) = computePenalty mp ∧
    collectTimes (insertPS mp k v) = collectTimes mp := by
  induction mp with
  | nil =>
    have hv : v.solved = false := by
      rcases hcase with h | h
      · have := congrArg Prod.fst h
        simpa [sig, lookupPS, defaultPS] using this
      · exact h.2
    refine ⟨?_, ?_, ?_⟩
    · rw [show insertPS [] k v = [(k, v)] from rfl, computeSolved_cons]
      simp [hv, computeSolved]
    · rw [show insertPS [] k v = [(k, v)] from rfl, computePenalty_cons]
      simp [hv, computePenalty]
    · rw [show insertPS [] k v = [(k, v)] from rfl, collectTimes_cons]
      simp [hv, collectTimes]
  | cons p rest ih =>
    unfold insertPS
    by_cases h1 : k < p.1
    · rw [if_pos h1]
      have habs : lookupPS (p :: rest) k = defaultPS := by
        apply lookupPS_default_of_lt
        intro q hq
        rcases List.mem_cons.mp hq with hq | hq
        · subst hq; exact h1
        · have := (List.pairwise_cons.mp hwf).1 q hq
          omega
      have hv : v.solved = false := by
        rcases hcase with h | h
        · have := congrArg Prod.fst h
          simpa [sig, habs, defaultPS] using this
        · exact h.2
      refine ⟨?_, ?_, ?_⟩
      · rw [computeSolved_cons ((k, v)) (p :: rest)]
        simp [hv]
      · rw [computePenalty_cons ((k, v)) (p :: rest)]
        simp [hv]
      · rw [collectTimes_cons ((k, v)) (p :: rest)]
        simp [hv]
    · rw [if_neg h1]
      by_cases h2 : k = p.1
      · rw [if_pos h2]
        have hlook : lookupPS (p :: rest) k = p.2 := by
          unfold lookupPS
          rw [if_pos h2.symm]
        rw [hlook] at hcase
        have hhead : (if v.solved then (1 : Int) else 0) = (if p.2.solved then (1 : Int) else 0) ∧
            (if v.solved then v.solveTime + 20 * v.wrongAttempts else 0)
              = (if p.2.solved then p.2.solveTime + 20 * p.2.wrongAttempts else 0) ∧
            (if v.solved then [v.solveTime] else [])
              = (if p.2.solved then [p.2.solveTime] else []) := by
          rcases hcase with h | h
          · have h1' := congrArg Prod.fst h
            have h2' := congrArg (fun x => x.2.1) h
            have h3' := congrArg (fun x => x.2.2) h
            simp [sig] at h1' h2' h3'
            rw [h1', h2', h3']
            exact ⟨rfl, rfl, rfl⟩
          · simp [h.1, h.2]
        refine ⟨?_, ?_, ?_⟩
        · rw [computeSolved_cons ((k, v)) rest, computeSolved_cons p rest, hhead.1]
        · rw [computePenalty_cons ((k, v)) rest, computePenalty_cons p rest, hhead.2.1]
        · rw [collectTimes_cons ((k, v)) rest, collectTimes_cons p rest, hhead.2.2]
      · rw [if_neg h2]
        have hlook : lookupPS (p :: rest) k = lookupPS rest k := by
          simp only [lookupPS]
          rw [if_neg (fun hh => h2 hh.symm)]
        rw [hlook] at hcase
        have hr := ih (List.pairwise_cons.mp hwf).2 hcase
        refine ⟨?_, ?_, ?_⟩
        · rw [computeSolved_cons p (insertPS rest k v), computeSolved_cons p rest, hr.1]
        · rw [computePenalty_cons p (insertPS rest k v), computePenalty_cons p rest, hr.2.1]
        · rw [collectTimes_cons p (insertPS rest k v), collectTimes_cons p rest, hr.2.2]

theorem cacheOK_set_problems (t : Team) (mp' : List (Nat × ProblemStatus)) (h : cacheOK t)
    (hs : computeSolved mp' = computeSolved t.problems ∧
          computePenalty mp' = computePenalty t.problems ∧
          collectTimes mp' = collectTimes t.problems) :
    cacheOK { t with problems := mp' } := by
  intro hv
  have hv' : t.cacheValid = true := hv
  have hts : computeTimes mp' = computeTimes t.problems := by
    unfold computeTimes
    rw [hs.2.2]
  have hh := h hv'
  exact ⟨by simpa [hs.1] using hh.1, by simpa [hs.2.1] using hh.2.1, by simpa [hts] using hh.2.2⟩

theorem insertTeamSorted_mem (ts : List Team) (t : Team) :
    ∀ x ∈ insertTeamSorted ts t, x ∈ ts ∨ x = t := by
  induction ts with
  | nil => intro x hx; right; simpa [insertTeamSorted] using hx
  | cons t0 rest ih =>
    intro x hx
    unfold insertTeamSorted at hx
    split at hx
    · rcases List.mem_cons.mp hx with hx | hx
      · right; exact hx
      · left; exact hx
    · rcases List.mem_cons.mp hx with hx | hx
      · left; simp [hx]
      · rcases ih x hx with hx | hx
        · left; simp [hx]
        · right; exact hx

theorem updTeams_twice_mem (ts : List Team) (t1 t2 : Team) (hname : t2.name = t1.name) :
    ∀ x ∈ updTeams (updTeams ts t1) t2, x ∈ ts ∨ x = t2 := by
  induction ts with
  | nil => intro x hx; simp [updTeams] at hx
  | cons t0 rest ih =>
    intro x hx
    by_cases h : t0.name = t1.name
    · have e1 : updTeams (t0 :: rest) t1 = t1 :: rest := by
        simp only [updTeams]
        rw [if_pos h]
      have e2 : updTeams (t1 :: rest) t2 = t2 :: rest := by
        simp only [updTeams]
        rw [if_pos hname.symm]
      rw [e1, e2] at hx
      rcases List.mem_cons.mp hx with hx | hx
      · right; exact hx
      · left; simp [hx]
    · have e1 : updTeams (t0 :: rest) t1 = t0 :: updTeams rest t1 := by
        simp only [updTeams]
        rw [if_neg h]
      have e2 : updTeams (t0 :: updTeams rest t1) t2 = t0 :: updTeams (updTeams rest t1) t2 := by
        simp only [updTeams]
        rw [if_neg (fun hh => h (hh.trans hname))]
      rw [e1, e2] at hx
      rcases List.mem_cons.mp hx with hx | hx
      · left; simp [hx]
      · rcases ih x hx with hx | hx
        · left; simp [hx]
        · right; exact hx

theorem initProblems_all_default :
    ∀ (l : List Nat) (mp : List (Nat × ProblemStatus)), (∀ x ∈ mp, x.2 = defaultPS) →
      ∀ x ∈ l.foldl (fun acc i => insertPS acc (65 + i) defaultPS) mp, x.2 = defaultPS := by
  intro l
  induction l with
  | nil => intro mp h x hx; exact h x hx
  | cons i l ih =>
    intro mp h x hx
    simp only [List.foldl_cons] at hx
    refine ih (insertPS mp (65 + i) defaultPS) ?_ x hx
    intro y hy
    rcases insertPS_mem mp (65 + i) defaultPS y hy with hy | hy
    · exact h y hy
    · rw [hy]

theorem initProblems_wf :
    ∀ (l : List Nat) (mp : List (Nat × ProblemStatus)), PMapWF mp →
      PMapWF (l.foldl (fun acc i => insertPS acc (65 + i) defaultPS) mp) := by
  intro l
  induction l with
  | nil => intro mp h; exact h
  | cons i l ih =>
    intro mp h
    simp only [List.foldl_cons]
    exact ih _ (insertPS_wf mp (65 + i) defaultPS h)

theorem computes_all_default (mp : List (Nat × ProblemStatus))
    (h : ∀ x ∈ mp, x.2 = defaultPS) :
    computeSolved mp = 0 ∧ computePenalty mp = 0 ∧ collectTimes mp = [] := by
  induction mp with
  | nil => exact ⟨rfl, rfl, rfl⟩
  | cons p rest ih =>
    have hp : p.2 = defaultPS := h p (by simp)
    have hr := ih (fun x hx => h x (by simp [hx]))
    have hsolved : p.2.solved = false := by rw [hp]; rfl
    refine ⟨?_, ?_, ?_⟩
    · rw [computeSolved_cons, hr.1]
      simp [hsolved]
    · rw [computePenalty_cons, hr.2.1]
      simp [hsolved]
    · rw [collectTimes_cons, hr.2.2]
      simp [hsolved]

theorem resolveOne_not_changed_eq (s : SysState) (tn : String) (pr : Nat)
    (hch : (processFrozen (lookupPS (findTeamD s tn).problems pr)).2 = false) :
    resolveOne s tn pr = (updTeam s (resolvedTeam s tn pr), none) := by
  unfold resolveOne resolvedTeam
  dsimp only
  rw [if_neg (by simp [hch])]

theorem resolveOne_started (s : SysState) (tn : String) (pr : Nat) :
    (resolveOne s tn pr).1.started = s.started := by
  unfold resolveOne
  dsimp only
  split
  · split
    · rfl
    · rfl
  · rfl

/-- Machine invariant: every team's cache is consistent and its problem map
well formed, and before the contest starts no problem entries exist. -/
def StateOK (s : SysState) : Prop :=
  (∀ t ∈ s.teams, cacheOK t ∧ PMapWF t.problems) ∧
  (s.started = false → ∀ t ∈ s.teams, t.problems = [])

/-- Input-contract check of one command: a submission requires a started
contest and a registered team (spec section 4.1). -/
def stepOKB (s : SysState) : Cmd → Bool
  | .submit _ team _ _ => s.started && (findTeam s team).isSome
  | _ => true

def runWfB : SysState → List Cmd → Bool
  | _, [] => true
  | s, c :: cs => stepOKB s c && runWfB ((step s c).getD s) cs

theorem initState_ok : StateOK initState := by
  constructor
  · intro t ht
    simp [initState] at ht
  · intro _ t ht
    simp [initState] at ht

theorem addTeam_ok (s : SysState) (n : String) (h : StateOK s) : StateOK (addTeam s n) := by
  unfold addTeam
  split
  · exact h
  split
  · exact h
  constructor
  · intro t ht
    rcases insertTeamSorted_mem s.teams (mkTeam n) t ht with ht | ht
    · exact h.1 t ht
    · subst ht
      exact ⟨fun hv => by simp [mkTeam] at hv, by simp [mkTeam, PMapWF]⟩
  · intro hst t ht
    rcases insertTeamSorted_mem s.teams (mkTeam n) t ht with ht | ht
    · exact h.2 hst t ht
    · subst ht
      rfl

theorem start_ok (s : SysState) (d : Int) (p : Nat) (h : StateOK s) :
    StateOK (startCompetition s d p) := by
  unfold startCompetition
  split
  · exact h
  rename_i hst
  have hnil : ∀ t ∈ s.teams, t.problems = [] := h.2 (by simpa using hst)
  constructor
  · intro t ht
    simp only [List.mem_map] at ht
    obtain ⟨t0, ht0, rfl⟩ := ht
    have hz : t0.problems = [] := hnil t0 ht0
    have hdef : ∀ x ∈ initProblems p t0.problems, x.2 = defaultPS := by
      rw [hz]
      exact initProblems_all_default (List.range p) [] (by simp)
    have hcomp := computes_all_default _ hdef
    constructor
    · apply cacheOK_set_problems t0 _ (h.1 t0 ht0).1
      refine ⟨?_, ?_, ?_⟩
      · rw [hcomp.1, hz]; rfl
      · rw [hcomp.2.1, hz]; rfl
      · rw [hcomp.2.2, hz]; rfl
    · show PMapWF (initProblems p t0.problems)
      unfold initProblems
      exact initProblems_wf _ _ (h.1 t0 ht0).2
  · intro hst'
    simp at hst'

theorem submitOp_ok (s : SysState) (p tn st : String) (time : Int) (s' : SysState)
    (h : StateOK s) (hstart : s.started = true)
    (hrun : submitOp s p tn st time = some s') : StateOK s' := by
  unfold submitOp at hrun
  cases hf : findTeam s tn with
  | none =>
    rw [hf] at hrun
    exact absurd hrun (by simp)
  | some team =>
    rw [hf] at hrun
    dsimp only at hrun
    injection hrun with hrun
    subst hrun
    have hmem : team ∈ s.teams := List.mem_of_find?_eq_some hf
    have hts := h.1 team hmem
    constructor
    · intro t ht
      rcases updTeams_mem s.teams _ t ht with ht | ht
      · exact h.1 t ht
      · subst ht
        by_cases hinv :
            (submitPS s.frozen ⟨p, st, time⟩ (lookupPS team.problems (probKey p))).2 = true
        · rw [if_pos hinv]
          refine ⟨cacheOK_invalidate _, ?_⟩
          show PMapWF (insertPS team.problems (probKey p) _)
          exact insertPS_wf _ _ _ hts.2
        · rw [if_neg hinv]
          rcases submitPS_cases s.frozen ⟨p, st, time⟩ (lookupPS team.problems (probKey p))
            with hc | hc
          · exact absurd hc hinv
          · refine ⟨?_, insertPS_wf _ _ _ hts.2⟩
            apply cacheOK_set_problems team _ hts.1
            exact computes_insertPS _ _ _ hts.2 (Or.inl hc.2)
    · intro hst
      rw [show (updTeam s _).started = s.started from rfl, hstart] at hst
      simp at hst

theorem validateAll_ok (s : SysState) (h : StateOK s) : StateOK (validateAll s) := by
  constructor
  · intro t ht
    simp only [validateAll, List.mem_map] at ht
    obtain ⟨t0, ht0, rfl⟩ := ht
    refine ⟨cacheOK_updateCache t0 (h.1 t0 ht0).1, ?_⟩
    show PMapWF (updateCache t0).problems
    rw [updateCache_problems t0]
    exact (h.1 t0 ht0).2
  · intro hst t ht
    simp only [validateAll, List.mem_map] at ht
    obtain ⟨t0, ht0, rfl⟩ := ht
    rw [updateCache_problems t0]
    exact h.2 hst t0 ht0

theorem flushScoreboard_ok (s : SysState) (h : StateOK s) : StateOK (flushScoreboard s) := h

theorem resolveOne_StateOK (s : SysState) (tn : String) (pr : Nat) (h : StateOK s)
    (hft : findTarget s = some (tn, pr)) : StateOK (resolveOne s tn pr).1 := by
  have hfro := findTarget_frozen s tn pr hft
  obtain ⟨team, hfind, hD⟩ := findTeam_of_frozen s tn pr hfro
  have hmem : team ∈ s.teams := List.mem_of_find?_eq_some hfind
  have hts := h.1 team hmem
  have hstarted : s.started = true := by
    by_contra hst
    have hnil := h.2 (by simpa using hst) team hmem
    rw [hD, hnil] at hfro
    simp [lookupPS, defaultPS] at hfro
  have hreq : resolvedTeam s tn pr
      = { team with problems := insertPS team.problems pr (processFrozen (lookupPS team.problems pr)).1 } := by
    unfold resolvedTeam
    rw [hD]
  have hwfr : PMapWF (resolvedTeam s tn pr).problems := by
    rw [hreq]
    show PMapWF (insertPS team.problems pr _)
    exact insertPS_wf _ _ _ hts.2
  constructor
  · intro t ht
    by_cases hch : (processFrozen (lookupPS (findTeamD s tn).problems pr)).2 = true
    · rw [resolveOne_changed_eq s tn pr hch] at ht
      dsimp only at ht
      have ht' : t ∈ updTeams (updTeams s.teams (resolvedTeam s tn pr))
          (invalidateCache (resolvedTeam s tn pr)) := by
        split at ht
        · exact ht
        · exact ht
      rcases updTeams_twice_mem s.teams (resolvedTeam s tn pr)
          (invalidateCache (resolvedTeam s tn pr)) rfl t ht' with ht'' | ht''
      · exact h.1 t ht''
      · subst ht''
        exact ⟨cacheOK_invalidate _, hwfr⟩
    · rw [resolveOne_not_changed_eq s tn pr (by simpa using hch)] at ht
      rcases updTeams_mem s.teams _ t ht with ht' | ht'
      · exact h.1 t ht'
      · subst ht'
        refine ⟨?_, hwfr⟩
        rw [hD] at hch
        have hnc := processFrozen_not_changed (lookupPS team.problems pr) (by simpa using hch)
        rw [hreq]
        apply cacheOK_set_problems team _ hts.1
        apply computes_insertPS _ _ _ hts.2
        rcases hnc with hnc | hnc
        · exact Or.inl hnc
        · exact Or.inr ⟨hnc.1, hnc.2⟩
  · intro hst
    rw [resolveOne_started, hstarted] at hst
    simp at hst

theorem scrollLoop_StateOK :
    ∀ (fuel : Nat) (s : SysState) (acc : List RankRec), StateOK s →
      StateOK (scrollLoop fuel s acc).1 := by
  intro fuel
  induction fuel with
  | zero => intro s acc h; exact h
  | succ fuel ih =>
    intro s acc h
    cases hft : findTarget s with
    | none =>
      rw [show scrollLoop (fuel + 1) s acc = (s, acc) from by simp [scrollLoop, hft]]
      exact h
    | some tp =>
      rw [show scrollLoop (fuel + 1) s acc
            = scrollLoop fuel (resolveOne s tp.1 tp.2).1
                (acc ++ (resolveOne s tp.1 tp.2).2.toList) from by simp [scrollLoop, hft]]
      exact ih _ _ (resolveOne_StateOK s tp.1 tp.2 h (by rw [hft]))

theorem scrollOp_StateOK (s : SysState) (h : StateOK s) : StateOK (scrollOp s).1 := by
  unfold scrollOp
  split
  · exact h
  · dsimp only
    apply validateAll_ok
    exact scrollLoop_StateOK _ _ _ (validateAll_ok _ (flushScoreboard_ok s h))

theorem step_StateOK (s : SysState) (c : Cmd) (s' : SysState)
    (h : StateOK s) (hok : stepOKB s c = true) (hrun : step s c = some s') : StateOK s' := by
  cases c with
  | addTeam n =>
    injection hrun with hrun
    subst hrun
    exact addTeam_ok s n h
  | start d p =>
    injection hrun with hrun
    subst hrun
    exact start_ok s d p h
  | submit p tn st time =>
    unfold stepOKB at hok
    simp only [Bool.and_eq_true] at hok
    exact submitOp_ok s p tn st time s' h hok.1 hrun
  | flush =>
    injection hrun with hrun
    subst hrun
    exact validateAll_ok _ (flushScoreboard_ok s h)
  | freeze =>
    injection hrun with hrun
    subst hrun
    unfold freezeOp
    split
    · exact h
    · exact h
  | scroll =>
    injection hrun with hrun
    subst hrun
    exact scrollOp_StateOK s h
  | queryRanking t =>
    injection hrun with hrun
    subst hrun
    exact h
  | querySubmission t p st =>
    injection hrun with hrun
    subst hrun
    exact h

theorem runFrom_StateOK :
    ∀ (cmds : List Cmd) (s s' : SysState), StateOK s →
      runWfB s cmds = true → runFrom s cmds = some s' → StateOK s' := by
  intro cmds
  induction cmds with
  | nil =>
    intro s s' h _ hrun
    injection hrun with hrun
    subst hrun
    exact h
  | cons c cs ih =>
    intro s s' h hwf hrun
    unfold runWfB at hwf
    simp only [Bool.and_eq_true] at hwf
    unfold runFrom at hrun
    cases hst : step s c with
    | none =>
      rw [hst] at hrun
      exact absurd hrun (by simp)
    | some s1 =>
      rw [hst] at hrun
      have h1 := step_StateOK s c s1 h hwf.1 hst
      have hwf2 : runWfB s1 cs = true := by
        have h2 := hwf.2
        rw [hst] at h2
        simpa using h2
      exact ih s1 s' h1 hwf2 hrun

/-- C6: after any well-formed command sequence (submissions name registered
teams and happen after the start, per the spec's input contract), every
team's solved count, penalty and solve-time list as read by the ranking
equal the values derived from its problem statuses: the penalty is the sum
over solved problems of solveTime + 20 * wrongAttempts, the solved count is
the number of solved problems, and the lazily recomputed cache is never
stale. -/
theorem claim6_ranking_reads_derived (cmds : List Cmd) (s : SysState)
    (hwf : runWfB initState cmds = true) (hrun : runCmds cmds = some s) :
    ∀ t ∈ s.teams,
      getSolvedCount t = ((t.problems.filter (fun p => p.2.solved)).length : Int) ∧
      getPenaltyTime t
        = ((t.problems.filter (fun p => p.2.solved)).map
            (fun p => p.2.solveTime + 20 * p.2.wrongAttempts)).sum ∧
      getSolveTimes t
        = sortDesc ((t.problems.filter (fun p => p.2.solved)).map (fun p => p.2.solveTime)) := by
  have hok := runFrom_StateOK cmds initState s initState_ok hwf hrun
  intro t ht
  have hc := (hok.1 t ht).1
  refine ⟨?_, ?_, ?_⟩
  · rw [getSolvedCount_of_cacheOK t hc, computeSolved_eq_filter]
  · rw [getPenaltyTime_of_cacheOK t hc, computePenalty_eq_sum]
  · rw [getSolveTimes_of_cacheOK t hc]
    unfold computeTimes
    rw [collectTimes_eq_map]

def w6Cmds : List Cmd :=
  [Cmd.addTeam "w", Cmd.start 300 2, Cmd.submit "A" "w" "Wrong" 3,
   Cmd.submit "A" "w" "Accepted" 7, Cmd.flush, Cmd.freeze, Cmd.submit "B" "w" "Wrong" 9,
   Cmd.scroll]

def w6State : SysState := (runCmds w6Cmds).getD initState

theorem claim6_ranking_reads_derived_witness :
    getPenaltyTime (findTeamD w6State "w")
      = (((findTeamD w6State "w").problems.filter (fun p => p.2.solved)).map
          (fun p => p.2.solveTime + 20 * p.2.wrongAttempts)).sum := by
  have h := claim6_ranking_reads_derived w6Cmds w6State (by decide) (by decide)
  exact (h (findTeamD w6State "w") (by decide)).2.1

end ICPC
